import Mathlib

/-!
# Verification of the tk-multi-publish2 publish engine hooks

This file embeds, as executable Lean definitions, the path-inference
utilities (`hooks/path_info.py`), the default task generator
(`hooks/task_generator.py`), the recursive settings merge
(`api/plugins/setting.py`), and the validate/publish/undo/finalize logic of
the base publish plugin (`hooks/publish.py`) of the tk-multi-publish2
repository, and proves properties of those definitions.

Modelling conventions:

* Python strings are `String` / `List Char`; `None`-able values are `Option`.
* The sgtk template system is an external collaborator; it is modelled in
  its zero-configuration state (`template_from_path` returns `None`, no
  `SEQ` template key is configured), which is the state in which the
  regex-based fallback logic of `path_info.py` - the code under study -
  runs.
* The filesystem is a finite list of existing paths; `os.listdir` input is
  a list of `(name, is_directory)` entries.
* Python 2 raising paths are modelled with `Option` (`none` = the call
  raised); dictionaries are association lists keyed by `String`.
-/

/-! ## Character classes used by the regexes of `path_info.py`

`VERSION_REGEX = (.*)([._-])v(\d+)\.?(\S+)?$` (IGNORECASE) and
`FRAME_REGEX = (.*)([._-])(\d+)\.(\S+)$` classify characters as the
separators `.`, `_`, `-`, the (case-insensitive) `v` marker, ASCII digits
(`\d` in a Python 2 byte pattern) and non-whitespace (`\S`). -/

def isSepChar (c : Char) : Bool :=
  c == '.' || c == '_' || c == '-'

def isVChar (c : Char) : Bool :=
  c == 'v' || c == 'V'

/-- Python `\s`: space, tab, newline, carriage return, vertical tab, form feed. -/
def isPySpace (c : Char) : Bool :=
  c == ' ' || c == '\t' || c == '\n' || c == '\r' || c == '\x0b' || c == '\x0c'

/-- `\S*` over a fragment: every character is non-whitespace. -/
def noSpace (l : List Char) : Bool :=
  l.all (fun c => !isPySpace c)

/-! ## Decimal digits: `int(...)` and `str(...)` -/

/-- Python `int` applied to a nonempty string of decimal digits. -/
def digitsToNat (l : List Char) : Nat :=
  l.foldl (fun a c => 10 * a + (c.toNat - '0'.toNat)) 0

/-- A single decimal digit as a character. -/
def digitChar (n : Nat) : Char :=
  Char.ofNat ('0'.toNat + n)

/-- Decimal rendering worker, structurally recursive on a fuel argument so
that it reduces inside the kernel. -/
def natDigitsGo (fuel n : Nat) : List Char :=
  match fuel with
  | 0 => []
  | f + 1 => if n < 10 then [digitChar n]
             else natDigitsGo f (n / 10) ++ [digitChar (n % 10)]

/-- Python `str` of a non-negative integer (decimal rendering). -/
def natDigits (n : Nat) : List Char :=
  natDigitsGo (n + 1) n

theorem natDigitsGo_fuel (f1 f2 n : Nat) (h1 : n < f1) (h2 : n < f2) :
    natDigitsGo f1 n = natDigitsGo f2 n := by
  induction n using Nat.strong_induction_on generalizing f1 f2 with
  | _ n ih =>
      match f1, f2 with
      | g1 + 1, g2 + 1 =>
          show (if n < 10 then [digitChar n]
                else natDigitsGo g1 (n / 10) ++ [digitChar (n % 10)]) =
            (if n < 10 then [digitChar n]
                else natDigitsGo g2 (n / 10) ++ [digitChar (n % 10)])
          by_cases h : n < 10
          · rw [if_pos h, if_pos h]
          · rw [if_neg h, if_neg h,
              ih (n / 10) (Nat.div_lt_self (by omega) (by omega)) g1 g2
                (by omega) (by omega)]

theorem natDigits_eq (n : Nat) :
    natDigits n = if n < 10 then [digitChar n]
      else natDigits (n / 10) ++ [digitChar (n % 10)] := by
  show (if n < 10 then [digitChar n]
      else natDigitsGo n (n / 10) ++ [digitChar (n % 10)]) = _
  by_cases h : n < 10
  · rw [if_pos h, if_pos h]
  · rw [if_neg h, if_neg h,
      natDigitsGo_fuel n (n / 10 + 1) (n / 10) (by omega) (by omega)]
    rfl

/-- Python `str.zfill`: left-pad with zeros to the requested width. -/
def zfill (l : List Char) (w : Nat) : List Char :=
  List.replicate (w - l.length) '0' ++ l

/-! ## Path components

`publisher.util.get_file_path_components` splits a path into the folder and
the file name (`os.path.split` semantics) and the hooks re-join the two with
`os.path.join`; the composite effect on a path is "replace everything after
the last `/`".  We model the file name as the part after the last slash and
the folder as the complementary part, slash included. -/

/-- The file-name component: everything after the last `/` (whole string if
there is no slash). -/
def fileNameOf (l : List Char) : List Char :=
  (l.reverse.takeWhile (fun c => c != '/')).reverse

/-- The folder component, trailing slash retained, so that
`folderOf l ++ fileNameOf l = l`. -/
def folderOf (l : List Char) : List Char :=
  (l.reverse.dropWhile (fun c => c != '/')).reverse

theorem takeWhile_append_all (p : Char → Bool) (a b : List Char)
    (h : ∀ c ∈ a, p c = true) :
    (a ++ b).takeWhile p = a ++ b.takeWhile p := by
  induction a with
  | nil => simp
  | cons x t ih =>
      have hx : p x = true := h x (by simp)
      simp only [List.cons_append, List.takeWhile_cons, hx]
      rw [ih (fun c hc => h c (by simp [hc]))]
      simp

theorem dropWhile_head_false (p : Char → Bool) (l : List Char) (c : Char)
    (t : List Char) (h : l.dropWhile p = c :: t) : p c = false := by
  induction l with
  | nil => simp at h
  | cons x xs ih =>
      by_cases hx : p x = true
      · rw [List.dropWhile_cons, if_pos hx] at h
        exact ih h
      · rw [List.dropWhile_cons, if_neg hx] at h
        cases h
        simpa using hx

theorem fileNameOf_no_slash (l : List Char) :
    '/' ∉ fileNameOf l := by
  intro hmem
  unfold fileNameOf at hmem
  rw [List.mem_reverse] at hmem
  have := List.mem_takeWhile_imp hmem
  simp at this

/-- Replacing the file name after a folder component: the split recovers the
new file name provided it contains no slash. -/
theorem fileNameOf_folder_append (l n : List Char) (hn : '/' ∉ n) :
    fileNameOf (folderOf l ++ n) = n := by
  have hall : ∀ c ∈ n.reverse, (c != '/') = true := by
    intro c hc
    simp only [ne_eq, bne_iff_ne]
    intro hcs
    exact hn (by simpa [hcs] using (List.mem_reverse.1 hc))
  unfold fileNameOf
  rw [List.reverse_append, takeWhile_append_all _ _ _ hall]
  have hfold : ((folderOf l).reverse).takeWhile (fun c => c != '/') = [] := by
    unfold folderOf
    rw [List.reverse_reverse]
    cases hd : l.reverse.dropWhile (fun c => c != '/') with
    | nil => simp
    | cons a t =>
        have := dropWhile_head_false _ _ _ _ hd
        simp only [bne_iff_ne, ne_eq, decide_eq_false_iff_not, not_not] at this
        simp [List.takeWhile_cons, this]
  rw [hfold, List.append_nil, List.reverse_reverse]

/-! ## Digit arithmetic lemmas -/

/-- Python 2 `\d` in a byte pattern: the ASCII digits. -/
def isDigitChar (c : Char) : Bool :=
  48 ≤ c.toNat && c.toNat ≤ 57

theorem digitsToNat_append (a b : List Char) :
    digitsToNat (a ++ b) =
      b.foldl (fun x c => 10 * x + (c.toNat - '0'.toNat)) (digitsToNat a) := by
  unfold digitsToNat
  rw [List.foldl_append]

theorem digitsToNat_append_digit (a : List Char) (c : Char) :
    digitsToNat (a ++ [c]) = 10 * digitsToNat a + (c.toNat - '0'.toNat) := by
  rw [digitsToNat_append]
  rfl

theorem digitChar_toNat (n : Nat) (h : n < 10) :
    (digitChar n).toNat = '0'.toNat + n := by
  interval_cases n <;> decide

theorem digitChar_isDigit (n : Nat) (h : n < 10) :
    isDigitChar (digitChar n) = true := by
  interval_cases n <;> decide

theorem natDigits_ne_nil (n : Nat) : natDigits n ≠ [] := by
  rw [natDigits_eq]
  by_cases h : n < 10 <;> simp [h]

theorem natDigits_all_digits (n : Nat) :
    ∀ c ∈ natDigits n, isDigitChar c = true := by
  induction n using Nat.strong_induction_on with
  | _ n ih =>
      rw [natDigits_eq]
      by_cases h : n < 10
      · simp only [h, if_true, List.mem_singleton]
        intro c hc
        subst hc
        exact digitChar_isDigit n h
      · simp only [h, if_false, List.mem_append, List.mem_singleton]
        intro c hc
        rcases hc with hc | hc
        · exact ih (n / 10) (Nat.div_lt_self (by omega) (by omega)) c hc
        · subst hc
          exact digitChar_isDigit (n % 10) (Nat.mod_lt _ (by omega))

theorem digitsToNat_natDigits (n : Nat) : digitsToNat (natDigits n) = n := by
  induction n using Nat.strong_induction_on with
  | _ n ih =>
      rw [natDigits_eq]
      by_cases h : n < 10
      · simp only [h, if_true]
        show digitsToNat ([] ++ [digitChar n]) = n
        rw [digitsToNat_append_digit, digitChar_toNat n h]
        simp [digitsToNat]
      · simp only [h, if_false]
        rw [digitsToNat_append_digit,
            ih (n / 10) (Nat.div_lt_self (by omega) (by omega)),
            digitChar_toNat (n % 10) (Nat.mod_lt _ (by omega))]
        omega

theorem digitsToNat_zfill (l : List Char) (w : Nat) :
    digitsToNat (zfill l w) = digitsToNat l := by
  unfold zfill
  generalize w - l.length = k
  induction k with
  | zero => simp
  | succ m ih =>
      rw [List.replicate_succ]
      show digitsToNat (('0' :: List.replicate m '0') ++ l) = digitsToNat l
      rw [← ih]
      rfl

theorem zfill_all_digits (l : List Char) (w : Nat)
    (h : ∀ c ∈ l, isDigitChar c = true) :
    ∀ c ∈ zfill l w, isDigitChar c = true := by
  intro c hc
  unfold zfill at hc
  rcases List.mem_append.1 hc with hc | hc
  · rw [List.eq_of_mem_replicate hc]
    decide
  · exact h c hc

theorem zfill_ne_nil (l : List Char) (w : Nat) (h : l ≠ []) :
    zfill l w ≠ [] := by
  unfold zfill
  intro habs
  rcases List.append_eq_nil.1 habs with ⟨_, h2⟩
  exact h h2

theorem zfill_length (l : List Char) (w : Nat) :
    (zfill l w).length = max w l.length := by
  unfold zfill
  rw [List.length_append, List.length_replicate]
  omega

/-! ## `VERSION_REGEX` matching

`re.search(VERSION_REGEX, filename)` with the greedy leading `(.*)` matches
at the rightmost position where a separator is followed by `v`/`V` and at
least one digit, with the remainder (after the maximal digit run) free of
whitespace (so that `\.?(\S+)?$` can consume it).  `versionMatchHere` tries
one position; `findVersionSplit` returns the rightmost successful position
as `(prefix-group, separator, digit-run, remainder-after-digits)`. -/

def versionMatchHere : List Char → Option (Char × List Char × List Char)
  | c :: d :: rest =>
    if isSepChar c && isVChar d then
      let ds := rest.takeWhile isDigitChar
      let rem := rest.dropWhile isDigitChar
      if ds.isEmpty then none
      else if noSpace rem then some (c, ds, rem)
      else none
    else none
  | _ => none

def findVersionSplit : List Char → Option (List Char × Char × List Char × List Char)
  | [] => none
  | c :: cs =>
    match findVersionSplit cs with
    | some (p, sep, d, r) => some (c :: p, sep, d, r)
    | none =>
      match versionMatchHere (c :: cs) with
      | some (sep, d, r) => some ([], sep, d, r)
      | none => none

/-! ### Inversion and composition lemmas for `findVersionSplit` -/

theorem versionMatchHere_not_sep (c : Char) (l : List Char)
    (hns : isSepChar c = false) : versionMatchHere (c :: l) = none := by
  cases l with
  | nil => rfl
  | cons d rest => simp [versionMatchHere, hns]

theorem versionMatchHere_some_decomp (l : List Char) (s : Char)
    (d r : List Char) (h : versionMatchHere l = some (s, d, r)) :
    ∃ vc rest, l = s :: vc :: rest ∧ isSepChar s = true ∧ isVChar vc = true ∧
      d = rest.takeWhile isDigitChar ∧ r = rest.dropWhile isDigitChar ∧
      d ≠ [] ∧ noSpace r = true := by
  match l with
  | [] => simp [versionMatchHere] at h
  | [c] => simp [versionMatchHere] at h
  | c :: vc :: rest =>
      simp only [versionMatchHere] at h
      by_cases hcv : (isSepChar c && isVChar vc) = true
      · rw [if_pos hcv] at h
        by_cases he : (rest.takeWhile isDigitChar).isEmpty = true
        · rw [if_pos he] at h
          simp at h
        · rw [if_neg he] at h
          by_cases hn : noSpace (rest.dropWhile isDigitChar) = true
          · rw [if_pos hn] at h
            simp only [Option.some.injEq, Prod.mk.injEq] at h
            obtain ⟨h1, h2, h3⟩ := h
            subst h1
            obtain ⟨hcs, hcvv⟩ : isSepChar c = true ∧ isVChar vc = true := by
              simpa using hcv
            refine ⟨vc, rest, rfl, hcs, hcvv, h2.symm, h3.symm, ?_, ?_⟩
            · rw [← h2]
              intro habs
              rw [habs] at he
              exact he rfl
            · rw [← h3]
              exact hn
          · rw [if_neg hn] at h
            simp at h
      · rw [if_neg hcv] at h
        simp at h

theorem dropWhile_append_all (p : Char → Bool) (a b : List Char)
    (h : ∀ c ∈ a, p c = true) :
    (a ++ b).dropWhile p = b.dropWhile p := by
  induction a with
  | nil => simp
  | cons x t ih =>
      have hx : p x = true := h x (by simp)
      simp only [List.cons_append, List.dropWhile_cons, hx, if_true]
      exact ih (fun c hc => h c (by simp [hc]))

theorem dropWhile_head_not (p : Char → Bool) (r : List Char)
    (h : ∀ c ∈ r.head?, p c = false) : r.dropWhile p = r := by
  cases r with
  | nil => rfl
  | cons c t =>
      have : p c = false := h c (by simp)
      simp [List.dropWhile_cons, this]

theorem takeWhile_head_not (p : Char → Bool) (r : List Char)
    (h : ∀ c ∈ r.head?, p c = false) : r.takeWhile p = [] := by
  cases r with
  | nil => rfl
  | cons c t =>
      have : p c = false := h c (by simp)
      simp [List.takeWhile_cons, this]

theorem versionMatchHere_intro (s vc : Char) (d r : List Char)
    (hs : isSepChar s = true) (hv : isVChar vc = true) (hd : d ≠ [])
    (hdall : ∀ c ∈ d, isDigitChar c = true)
    (hr : ∀ c ∈ r.head?, isDigitChar c = false)
    (hns : noSpace r = true) :
    versionMatchHere (s :: vc :: (d ++ r)) = some (s, d, r) := by
  have ht : (d ++ r).takeWhile isDigitChar = d := by
    rw [takeWhile_append_all _ _ _ hdall, takeWhile_head_not _ _ hr,
        List.append_nil]
  have hdw : (d ++ r).dropWhile isDigitChar = r := by
    rw [dropWhile_append_all _ _ _ hdall, dropWhile_head_not _ _ hr]
  have hde : d.isEmpty = false := by
    cases d with
    | nil => exact absurd rfl hd
    | cons x t => rfl
  simp only [versionMatchHere]
  rw [ht, hdw]
  simp [hs, hv, hde, hns]

theorem findVersionSplit_cons_none_inv (c : Char) (cs : List Char)
    (h : findVersionSplit (c :: cs) = none) : findVersionSplit cs = none := by
  cases hfs : findVersionSplit cs with
  | none => rfl
  | some x =>
      obtain ⟨p, s, d, r⟩ := x
      rw [findVersionSplit, hfs] at h
      simp at h

theorem findVersionSplit_suffix_none (a b : List Char)
    (h : findVersionSplit (a ++ b) = none) : findVersionSplit b = none := by
  induction a with
  | nil => exact h
  | cons x t ih => exact ih (findVersionSplit_cons_none_inv _ _ h)

theorem findVersionSplit_cons_none (c : Char) (cs : List Char)
    (hns : isSepChar c = false) (h : findVersionSplit cs = none) :
    findVersionSplit (c :: cs) = none := by
  rw [findVersionSplit, h, versionMatchHere_not_sep c cs hns]

theorem findVersionSplit_append_none (a b : List Char)
    (ha : ∀ c ∈ a, isSepChar c = false) (hb : findVersionSplit b = none) :
    findVersionSplit (a ++ b) = none := by
  induction a with
  | nil => exact hb
  | cons x t ih =>
      exact findVersionSplit_cons_none _ _ (ha x (by simp))
        (ih (fun c hc => ha c (by simp [hc])))

theorem findVersionSplit_cons_some (c : Char) (cs p : List Char) (s : Char)
    (d r : List Char) (h : findVersionSplit cs = some (p, s, d, r)) :
    findVersionSplit (c :: cs) = some (c :: p, s, d, r) := by
  rw [findVersionSplit, h]

theorem findVersionSplit_append_some (a b p : List Char) (s : Char)
    (d r : List Char) (h : findVersionSplit b = some (p, s, d, r)) :
    findVersionSplit (a ++ b) = some (a ++ p, s, d, r) := by
  induction a with
  | nil => exact h
  | cons x t ih => exact findVersionSplit_cons_some _ _ _ _ _ _ ih

theorem findVersionSplit_some_decomp (l p : List Char) (s : Char)
    (d r : List Char) (h : findVersionSplit l = some (p, s, d, r)) :
    ∃ vc, l = p ++ s :: vc :: (d ++ r) ∧ isSepChar s = true ∧
      isVChar vc = true ∧ d ≠ [] ∧ (∀ c ∈ d, isDigitChar c = true) ∧
      noSpace r = true ∧ findVersionSplit (vc :: (d ++ r)) = none := by
  induction l generalizing p with
  | nil => simp [findVersionSplit] at h
  | cons c cs ih =>
      rw [findVersionSplit] at h
      cases hfs : findVersionSplit cs with
      | some x =>
          obtain ⟨p', s', d', r'⟩ := x
          rw [hfs] at h
          simp only [Option.some.injEq, Prod.mk.injEq] at h
          obtain ⟨h1, h2, h3, h4⟩ := h
          subst h2
          subst h3
          subst h4
          obtain ⟨vc, hdec, hrest⟩ := ih p' hfs
          refine ⟨vc, ?_, hrest⟩
          rw [← h1, hdec]
          rfl
      | none =>
          rw [hfs] at h
          cases hvm : versionMatchHere (c :: cs) with
          | none => rw [hvm] at h; simp at h
          | some y =>
              obtain ⟨s0, d0, r0⟩ := y
              rw [hvm] at h
              simp only [Option.some.injEq, Prod.mk.injEq] at h
              obtain ⟨h1, h2, h3, h4⟩ := h
              subst h2
              subst h3
              subst h4
              obtain ⟨vc, rest, hl, hs, hv, hd, hr, hdne, hns⟩ :=
                versionMatchHere_some_decomp _ _ _ _ hvm
              have hrest : rest = d0 ++ r0 := by
                rw [hd, hr]
                exact (List.takeWhile_append_dropWhile _ _).symm
              refine ⟨vc, ?_, hs, hv, hdne, ?_, hns, ?_⟩
              · rw [← h1, List.nil_append, hl, hrest]
              · intro x hx
                rw [hd] at hx
                exact List.mem_takeWhile_imp hx
              · have hcs : cs = vc :: (d0 ++ r0) := by
                  rw [← hrest]
                  exact (List.cons.inj hl).2
                rw [← hcs]
                exact hfs

/-! ## `get_version_number` and `get_next_version_path`

`get_version_number` (path_info.py:103-133) extracts `int(group(3))` of the
`VERSION_REGEX` match on the file name.  `get_next_version_path`
(path_info.py:483-546, regex fallback; templates are not configured) keeps
the prefix/separator groups, bumps the version, restores the zero padding
with `str(...).zfill(padding)` and re-appends `"." + extension` when the
extension group (`\.?(\S+)?`) matched. -/

/-- Group 4 of `VERSION_REGEX`: after the digit run, `\.?` greedily eats one
dot and `(\S+)?` captures the rest when nonempty. -/
def extGroup : List Char → Option (List Char)
  | [] => none
  | c :: t =>
    if c == '.' then (if t.isEmpty then none else some t) else some (c :: t)

/-- `"." + extension` re-appended by `get_next_version_path` (empty when the
extension group did not match). -/
def newRemOf (rem : List Char) : List Char :=
  match extGroup rem with
  | some e => '.' :: e
  | none => []

/-- The remainder after the digit run is empty or starts with a dot: the
version token is delimited from the extension in the documented
`name.v###.ext` form. -/
def remOk : List Char → Bool
  | [] => true
  | c :: _ => c == '.'

def nextFileNameCore (pre : List Char) (sep : Char) (d rem : List Char) :
    List Char :=
  pre ++ sep :: 'v' ::
    (zfill (natDigits (digitsToNat d + 1)) d.length ++ newRemOf rem)

def getVersionNumberL (path : List Char) : Option Nat :=
  (findVersionSplit (fileNameOf path)).map (fun x => digitsToNat x.2.2.1)

def getNextVersionPathL (path : List Char) : Option (List Char) :=
  match findVersionSplit (fileNameOf path) with
  | none => none
  | some (pre, sep, d, rem) => some (folderOf path ++ nextFileNameCore pre sep d rem)

/-- `BasicPathInfo.get_version_number` on a `String` path. -/
def getVersionNumber (p : String) : Option Nat :=
  getVersionNumberL p.data

/-- `BasicPathInfo.get_next_version_path` on a `String` path. -/
def getNextVersionPath (p : String) : Option String :=
  (getNextVersionPathL p.data).map (fun l => String.mk l)

theorem newRemOf_of_remOk (rem : List Char) (h : remOk rem = true) :
    newRemOf rem = [] ∨ newRemOf rem = rem := by
  cases rem with
  | nil => exact Or.inl rfl
  | cons c t =>
      have hc : c = '.' := by
        have : (c == '.') = true := h
        exact eq_of_beq this
      subst hc
      cases t with
      | nil => exact Or.inl rfl
      | cons a s => exact Or.inr rfl

theorem remOk_newRemOf (rem : List Char) : remOk (newRemOf rem) = true := by
  unfold newRemOf
  cases extGroup rem with
  | none => rfl
  | some e => rfl

theorem newRemOf_head_not_digit (rem : List Char) :
    ∀ c ∈ (newRemOf rem).head?, isDigitChar c = false := by
  unfold newRemOf
  cases extGroup rem with
  | none => simp
  | some e =>
      intro c hc
      simp only [List.head?_cons, Option.mem_def, Option.some.injEq] at hc
      subst hc
      decide

theorem isSepChar_digit_false (c : Char) (h : isDigitChar c = true) :
    isSepChar c = false := by
  have h1 : c ≠ '.' := by
    intro he
    subst he
    exact absurd h (by decide)
  have h2 : c ≠ '_' := by
    intro he
    subst he
    exact absurd h (by decide)
  have h3 : c ≠ '-' := by
    intro he
    subst he
    exact absurd h (by decide)
  simp [isSepChar, h1, h2, h3]

theorem digit_ne_slash (c : Char) (h : isDigitChar c = true) : c ≠ '/' := by
  intro he
  subst he
  exact absurd h (by decide)

/-- The reconstructed next-version file name parses back at the same
position, with the zero-filled incremented digit run, provided the original
remainder was dot-delimited (or empty). -/
theorem findVersionSplit_nextFileNameCore (f pre : List Char) (sep : Char)
    (d rem : List Char) (h : findVersionSplit f = some (pre, sep, d, rem))
    (hrem : remOk rem = true) :
    findVersionSplit (nextFileNameCore pre sep d rem) =
      some (pre, sep, zfill (natDigits (digitsToNat d + 1)) d.length,
        newRemOf rem) := by
  obtain ⟨vc, hdecomp, hs, hv, hdne, hdall, hnsr, hnone⟩ :=
    findVersionSplit_some_decomp _ _ _ _ _ h
  have hnd_digits : ∀ c ∈ zfill (natDigits (digitsToNat d + 1)) d.length,
      isDigitChar c = true :=
    zfill_all_digits _ _ (natDigits_all_digits _)
  have hr_none : findVersionSplit rem = none :=
    findVersionSplit_suffix_none d rem (findVersionSplit_cons_none_inv _ _ hnone)
  have hnew_none : findVersionSplit (newRemOf rem) = none := by
    rcases newRemOf_of_remOk rem hrem with h0 | h0 <;> rw [h0]
    · rfl
    · exact hr_none
  have hnew_nospace : noSpace (newRemOf rem) = true := by
    rcases newRemOf_of_remOk rem hrem with h0 | h0 <;> rw [h0]
    · rfl
    · exact hnsr
  have hnd_none : findVersionSplit
      (zfill (natDigits (digitsToNat d + 1)) d.length ++ newRemOf rem) = none :=
    findVersionSplit_append_none _ _
      (fun c hc => isSepChar_digit_false c (hnd_digits c hc)) hnew_none
  have hv_none : findVersionSplit
      ('v' :: (zfill (natDigits (digitsToNat d + 1)) d.length ++ newRemOf rem)) =
      none :=
    findVersionSplit_cons_none _ _ (by decide) hnd_none
  have hmatch : versionMatchHere (sep :: 'v' ::
      (zfill (natDigits (digitsToNat d + 1)) d.length ++ newRemOf rem)) =
      some (sep, zfill (natDigits (digitsToNat d + 1)) d.length, newRemOf rem) :=
    versionMatchHere_intro sep 'v' _ _ hs (by decide)
      (zfill_ne_nil _ _ (natDigits_ne_nil _)) hnd_digits
      (newRemOf_head_not_digit rem) hnew_nospace
  have hcore : findVersionSplit (sep :: 'v' ::
      (zfill (natDigits (digitsToNat d + 1)) d.length ++ newRemOf rem)) =
      some ([], sep, zfill (natDigits (digitsToNat d + 1)) d.length,
        newRemOf rem) := by
    rw [findVersionSplit, hv_none, hmatch]
  have := findVersionSplit_append_some pre _ _ _ _ _ hcore
  rw [List.append_nil] at this
  exact this

theorem extGroup_sub (rem e : List Char) (h : extGroup rem = some e) :
    ∀ c ∈ e, c ∈ rem := by
  cases rem with
  | nil => simp [extGroup] at h
  | cons c0 t =>
      rw [show extGroup (c0 :: t) =
          (if (c0 == '.') = true then
            (if t.isEmpty = true then none else some t)
          else some (c0 :: t)) from rfl] at h
      by_cases hc0 : (c0 == '.') = true
      · rw [if_pos hc0] at h
        by_cases ht : t.isEmpty = true
        · rw [if_pos ht] at h
          simp at h
        · rw [if_neg ht] at h
          cases h
          intro c hc
          exact List.mem_cons_of_mem _ hc
      · rw [if_neg hc0] at h
        cases h
        intro c hc
        exact hc

theorem mem_newRemOf (rem : List Char) (c : Char) (h : c ∈ newRemOf rem) :
    c = '.' ∨ c ∈ rem := by
  unfold newRemOf at h
  cases hg : extGroup rem with
  | none => rw [hg] at h; simp at h
  | some e =>
      rw [hg] at h
      rcases List.mem_cons.1 h with h | h
      · exact Or.inl h
      · exact Or.inr (extGroup_sub rem e hg c h)

theorem nextFileNameCore_no_slash (f pre : List Char) (sep : Char)
    (d rem : List Char) (h : findVersionSplit f = some (pre, sep, d, rem))
    (hf : '/' ∉ f) : '/' ∉ nextFileNameCore pre sep d rem := by
  obtain ⟨vc, hdec, hs, hv, hdne, hdall, hnsr, hnone⟩ :=
    findVersionSplit_some_decomp _ _ _ _ _ h
  intro hmem
  unfold nextFileNameCore at hmem
  rcases List.mem_append.1 hmem with hmem | hmem
  · exact hf (hdec ▸ List.mem_append_left _ hmem)
  · rcases List.mem_cons.1 hmem with hmem | hmem
    · exact hf (hdec ▸ List.mem_append_right _ (hmem ▸ List.mem_cons_self _ _))
    · rcases List.mem_cons.1 hmem with hmem | hmem
      · simp at hmem
      · rcases List.mem_append.1 hmem with hmem | hmem
        · exact absurd rfl
            (digit_ne_slash _ (zfill_all_digits _ _ (natDigits_all_digits _) _ hmem)).symm
        · rcases mem_newRemOf rem _ hmem with h0 | h0
          · simp at h0
          · refine hf (hdec ▸ List.mem_append_right _ ?_)
            exact List.mem_cons_of_mem _ (List.mem_cons_of_mem _
              (List.mem_append_right _ h0))

/-- One step of version bumping at the whole-path level: the bumped path is
well formed, parses at the same position, and its version number is the
successor. -/
theorem nextVersionPath_step (p pre : List Char) (sep : Char)
    (d rem : List Char)
    (h : findVersionSplit (fileNameOf p) = some (pre, sep, d, rem))
    (hrem : remOk rem = true) :
    getNextVersionPathL p = some (folderOf p ++ nextFileNameCore pre sep d rem) ∧
    fileNameOf (folderOf p ++ nextFileNameCore pre sep d rem) =
      nextFileNameCore pre sep d rem ∧
    findVersionSplit (fileNameOf (folderOf p ++ nextFileNameCore pre sep d rem)) =
      some (pre, sep, zfill (natDigits (digitsToNat d + 1)) d.length,
        newRemOf rem) ∧
    getVersionNumberL (folderOf p ++ nextFileNameCore pre sep d rem) =
      some (digitsToNat d + 1) := by
  have hno : '/' ∉ nextFileNameCore pre sep d rem :=
    nextFileNameCore_no_slash _ _ _ _ _ h (fileNameOf_no_slash p)
  have hfn : fileNameOf (folderOf p ++ nextFileNameCore pre sep d rem) =
      nextFileNameCore pre sep d rem :=
    fileNameOf_folder_append p _ hno
  have hsplit : findVersionSplit
      (fileNameOf (folderOf p ++ nextFileNameCore pre sep d rem)) =
      some (pre, sep, zfill (natDigits (digitsToNat d + 1)) d.length,
        newRemOf rem) := by
    rw [hfn]
    exact findVersionSplit_nextFileNameCore _ _ _ _ _ h hrem
  refine ⟨?_, hfn, hsplit, ?_⟩
  · unfold getNextVersionPathL
    rw [h]
  · unfold getVersionNumberL
    rw [hsplit]
    simp [digitsToNat_zfill, digitsToNat_natDigits]

/-- C5, counterexample: the claim `extract_version_number(next_version_path(p))
== extract_version_number(p) + 1` fails for the path `a.v1v5x`, which does
contain a version token (`VERSION_REGEX` matches `.v1` with extension group
`v5x`): bumping produces `a.v2.v5x`, in which the rightmost (greedy) match is
the extension's own `v5` token, so extraction returns 5, not 2. -/
theorem c5_counterexample :
    getVersionNumber "a.v1v5x" = some 1 ∧
    getNextVersionPath "a.v1v5x" = some "a.v2.v5x" ∧
    getVersionNumber "a.v2.v5x" = some 5 ∧
    ¬getVersionNumber "a.v2.v5x" = some (1 + 1) := by
  refine ⟨?_, ?_, ?_, ?_⟩ <;> decide

/-- C5 (amended): for every path `p` with no version token,
`get_next_version_path` returns `None`; and for every path `p` whose file
name matches `VERSION_REGEX` with the remainder after the digit run empty or
dot-delimited (the documented `name.v###[.ext]` shape, which excludes the
counterexample family `a.v1v5x`), the bumped path exists, its extracted
version number is the original plus one, and the zero-padding width of the
new version token is the maximum of the original width and the width of the
incremented number (preserved unless the number no longer fits, in which
case it grows). -/
theorem c5_amended (p : String) (pre : List Char) (sep : Char)
    (d rem : List Char)
    (h : findVersionSplit (fileNameOf p.data) = some (pre, sep, d, rem))
    (hrem : remOk rem = true) :
    (∀ q : String, getVersionNumber q = none → getNextVersionPath q = none) ∧
    (∃ q : String, getNextVersionPath p = some q ∧
      getVersionNumber p = some (digitsToNat d) ∧
      getVersionNumber q = some (digitsToNat d + 1) ∧
      findVersionSplit (fileNameOf q.data) =
        some (pre, sep, zfill (natDigits (digitsToNat d + 1)) d.length,
          newRemOf rem) ∧
      (zfill (natDigits (digitsToNat d + 1)) d.length).length =
        max d.length (natDigits (digitsToNat d + 1)).length) := by
  constructor
  · intro q hq
    unfold getVersionNumber getVersionNumberL at hq
    unfold getNextVersionPath getNextVersionPathL
    cases hfs : findVersionSplit (fileNameOf q.data) with
    | none => rfl
    | some x => rw [hfs] at hq; simp at hq
  · obtain ⟨hnext, hfn, hsplit, hver⟩ := nextVersionPath_step p.data _ _ _ _ h hrem
    refine ⟨String.mk (folderOf p.data ++ nextFileNameCore pre sep d rem),
        ?_, ?_, ?_, ?_, ?_⟩
    · unfold getNextVersionPath
      rw [hnext]
      rfl
    · unfold getVersionNumber getVersionNumberL
      rw [h]
      rfl
    · exact hver
    · exact hsplit
    · exact zfill_length _ _

/-- C5 witness: the amended theorem applied to the spec scenario path
`scene.v007.ma` (3-wide padding preserved across the bump to v008). -/
theorem c5_amended_witness :
    ∃ q : String, getNextVersionPath "scene.v007.ma" = some q ∧
      getVersionNumber "scene.v007.ma" = some 7 ∧
      getVersionNumber q = some 8 := by
  obtain ⟨-, q, h1, h2, h3, -, -⟩ :=
    c5_amended "scene.v007.ma" "scene".data '.' "007".data ".ma".data
      (by decide) (by decide)
  have e7 : digitsToNat "007".data = 7 := by decide
  rw [e7] at h2 h3
  exact ⟨q, h1, h2, h3⟩

/-! ## `save_to_next_version` (path_info.py:581-644)

The method extracts the version number (skip with `None` if absent), takes
the next version path (warn and return `None` if it cannot be determined),
then, while the candidate exists on disk, replaces it by its own next
version path; finally it invokes the save callback once on the resulting
path and returns it.  The unbounded `while` loop is modelled with an
explicit fuel parameter (`none` = the loop was still running when the fuel
ran out, or `get_next_version_path` returned `None` mid-loop, on which the
model gives up); the theorem shows `disk.length + 1` fuel always suffices. -/

def probeFuel (disk : List String) : Nat → String → Option String
  | 0, _ => none
  | fuel + 1, p =>
    if p ∈ disk then
      match getNextVersionPath p with
      | some q => probeFuel disk fuel q
      | none => none
    else some p

def saveToNextVersion (disk : List String) (fuel : Nat) (path : String) :
    Option String :=
  match getVersionNumber path with
  | none => none
  | some _ =>
    match getNextVersionPath path with
    | none => none
    | some nvp => probeFuel disk fuel nvp

/-- `k`-fold iteration of `get_next_version_path`. -/
def nextChain : Nat → String → Option String
  | 0, p => some p
  | k + 1, p =>
    match getNextVersionPath p with
    | some q => nextChain k q
    | none => none

theorem noSpace_all (l : List Char) (h : noSpace l = true) :
    ∀ c ∈ l, isPySpace c = false := by
  unfold noSpace at h
  rw [List.all_eq_true] at h
  intro c hc
  have h2 := h c hc
  cases hip : isPySpace c with
  | false => rfl
  | true => rw [hip] at h2; exact absurd h2 (by decide)

theorem noSpace_mem (l : List Char) (h : ∀ c ∈ l, isPySpace c = false) :
    noSpace l = true := by
  unfold noSpace
  rw [List.all_eq_true]
  intro c hc
  rw [h c hc]
  rfl

theorem noSpace_newRemOf (rem : List Char) (h : noSpace rem = true) :
    noSpace (newRemOf rem) = true := by
  apply noSpace_mem
  intro c hc
  rcases mem_newRemOf rem c hc with h0 | h0
  · rw [h0]; decide
  · exact noSpace_all rem h c h0

/-- Bumping an arbitrary matched file name re-parses: the rightmost match
of the reconstructed name is either the rewritten token itself (same
position, value incremented) or a token strictly further right, exposed
inside the old extension group by the inserted dot (`a.v1v5x` family). -/
theorem findVersionSplit_nextFileNameCore_key (f pre : List Char)
    (sep : Char) (d rem : List Char)
    (h : findVersionSplit f = some (pre, sep, d, rem)) :
    ∃ pre2 sep2 d2 rem2,
      findVersionSplit (nextFileNameCore pre sep d rem) =
        some (pre2, sep2, d2, rem2) ∧
      (pre.length < pre2.length ∨
        (pre2 = pre ∧ digitsToNat d2 = digitsToNat d + 1)) := by
  obtain ⟨vc, hdecomp, hs, hv, hdne, hdall, hnsr, hnone⟩ :=
    findVersionSplit_some_decomp _ _ _ _ _ h
  have hnd_digits : ∀ c ∈ zfill (natDigits (digitsToNat d + 1)) d.length,
      isDigitChar c = true :=
    zfill_all_digits _ _ (natDigits_all_digits _)
  cases hinner : findVersionSplit ('v' ::
      (zfill (natDigits (digitsToNat d + 1)) d.length ++ newRemOf rem)) with
  | none =>
      have hmatch : versionMatchHere (sep :: 'v' ::
          (zfill (natDigits (digitsToNat d + 1)) d.length ++ newRemOf rem)) =
          some (sep, zfill (natDigits (digitsToNat d + 1)) d.length,
            newRemOf rem) :=
        versionMatchHere_intro sep 'v' _ _ hs (by decide)
          (zfill_ne_nil _ _ (natDigits_ne_nil _)) hnd_digits
          (newRemOf_head_not_digit rem) (noSpace_newRemOf rem hnsr)
      have hcore : findVersionSplit (sep :: 'v' ::
          (zfill (natDigits (digitsToNat d + 1)) d.length ++ newRemOf rem)) =
          some ([], sep, zfill (natDigits (digitsToNat d + 1)) d.length,
            newRemOf rem) := by
        rw [findVersionSplit, hinner, hmatch]
      have hall := findVersionSplit_append_some pre _ _ _ _ _ hcore
      rw [List.append_nil] at hall
      refine ⟨pre, sep, zfill (natDigits (digitsToNat d + 1)) d.length,
        newRemOf rem, hall, Or.inr ⟨rfl, ?_⟩⟩
      rw [digitsToNat_zfill, digitsToNat_natDigits]
  | some x =>
      obtain ⟨p1, s1, d1, r1⟩ := x
      have hcons := findVersionSplit_cons_some sep _ _ _ _ _ hinner
      have hall := findVersionSplit_append_some pre _ _ _ _ _ hcons
      refine ⟨pre ++ sep :: p1, s1, d1, r1, hall, Or.inl ?_⟩
      rw [List.length_append, List.length_cons]
      omega

/-- The pair that strictly increases lexicographically along version bumps:
match position (the prefix-group length) first, then the version value. -/
def verKey (p : String) : Option (Nat × Nat) :=
  (findVersionSplit (fileNameOf p.data)).map
    (fun x => (x.1.length, digitsToNat x.2.2.1))

def keyLt (a b : Nat × Nat) : Prop :=
  a.1 < b.1 ∨ (a.1 = b.1 ∧ a.2 < b.2)

theorem keyLt_trans (a b c : Nat × Nat) (h1 : keyLt a b) (h2 : keyLt b c) :
    keyLt a c := by
  unfold keyLt at h1 h2 ⊢
  omega

theorem keyLt_ne_of_keys (p q : String) (kp kq : Nat × Nat)
    (hp : verKey p = some kp) (hq : verKey q = some kq)
    (h : keyLt kp kq) : q ≠ p := by
  intro he
  subst he
  rw [hp] at hq
  have h2 := Option.some_inj.1 hq
  subst h2
  unfold keyLt at h
  omega

theorem verKey_step (p : String) (kp : Nat × Nat)
    (hk : verKey p = some kp) :
    ∃ q kq, getNextVersionPath p = some q ∧ verKey q = some kq ∧
      keyLt kp kq := by
  unfold verKey at hk
  cases hfs : findVersionSplit (fileNameOf p.data) with
  | none => rw [hfs] at hk; simp at hk
  | some x =>
      obtain ⟨pre, sep, d, rem⟩ := x
      rw [hfs] at hk
      simp only [Option.map_some', Option.some.injEq] at hk
      obtain ⟨pre2, sep2, d2, rem2, hsplit2, hrel⟩ :=
        findVersionSplit_nextFileNameCore_key _ _ _ _ _ hfs
      have hno : '/' ∉ nextFileNameCore pre sep d rem :=
        nextFileNameCore_no_slash _ _ _ _ _ hfs (fileNameOf_no_slash p.data)
      have hfn : fileNameOf (folderOf p.data ++ nextFileNameCore pre sep d rem)
          = nextFileNameCore pre sep d rem :=
        fileNameOf_folder_append p.data _ hno
      refine ⟨String.mk (folderOf p.data ++ nextFileNameCore pre sep d rem),
        (pre2.length, digitsToNat d2), ?_, ?_, ?_⟩
      · unfold getNextVersionPath getNextVersionPathL
        rw [hfs]
        rfl
      · unfold verKey
        rw [show (String.mk (folderOf p.data ++
            nextFileNameCore pre sep d rem)).data =
            folderOf p.data ++ nextFileNameCore pre sep d rem from rfl]
        rw [hfn, hsplit2]
        rfl
      · rw [← hk]
        rcases hrel with h1 | ⟨h1, h2⟩
        · exact Or.inl h1
        · refine Or.inr ⟨?_, ?_⟩
          · show pre.length = pre2.length
            rw [h1]
          · show digitsToNat d < digitsToNat d2
            omega

theorem nextChain_key (k : Nat) (q : String) (kq : Nat × Nat)
    (hq : verKey q = some kq) :
    ∃ r kr, nextChain k q = some r ∧ verKey r = some kr ∧
      (kq = kr ∨ keyLt kq kr) := by
  induction k generalizing q kq with
  | zero => exact ⟨q, kq, rfl, hq, Or.inl rfl⟩
  | succ m ih =>
      obtain ⟨q1, k1, hnext, hk1, hlt⟩ := verKey_step q kq hq
      obtain ⟨r, kr, hchain, hkr, hrel⟩ := ih q1 k1 hk1
      refine ⟨r, kr, ?_, hkr, Or.inr ?_⟩
      · show (match getNextVersionPath q with
          | some q2 => nextChain m q2
          | none => none) = some r
        rw [hnext]
        exact hchain
      · rcases hrel with he | h2
        · exact he ▸ hlt
        · exact keyLt_trans _ _ _ hlt h2

theorem probeFuel_erase_key (disk : List String) (x : String)
    (kx : Nat × Nat) (hx : verKey x = some kx) :
    ∀ (fuel : Nat) (q : String) (kq : Nat × Nat), verKey q = some kq →
      keyLt kx kq →
      probeFuel disk fuel q = probeFuel (disk.erase x) fuel q := by
  intro fuel
  induction fuel with
  | zero => intro q kq _ _; rfl
  | succ f ih =>
      intro q kq hkq hgt
      have hne : q ≠ x := keyLt_ne_of_keys x q kx kq hx hkq hgt
      obtain ⟨q1, k1, hnext, hk1, hlt⟩ := verKey_step q kq hkq
      by_cases hq_disk : q ∈ disk
      · have hq_er : q ∈ disk.erase x := (List.mem_erase_of_ne hne).2 hq_disk
        simp only [probeFuel]
        rw [if_pos hq_disk, if_pos hq_er, hnext]
        exact ih q1 k1 hk1 (keyLt_trans _ _ _ hgt hlt)
      · have hq_er : q ∉ disk.erase x := fun hmem =>
          hq_disk (List.mem_of_mem_erase hmem)
        simp only [probeFuel]
        rw [if_neg hq_disk, if_neg hq_er]

theorem probeFuel_mono (disk : List String) :
    ∀ (f g : Nat) (q : String) (r : String), f ≤ g →
      probeFuel disk f q = some r → probeFuel disk g q = some r := by
  intro f
  induction f with
  | zero => intro g q r _ h; simp [probeFuel] at h
  | succ f0 ih =>
      intro g q r hfg h
      match g, hfg with
      | g0 + 1, hfg =>
          simp only [probeFuel] at h ⊢
          by_cases hq : q ∈ disk
          · rw [if_pos hq] at h ⊢
            cases hn : getNextVersionPath q with
            | none => rw [hn] at h; simp at h
            | some q1 =>
                rw [hn] at h
                exact ih g0 q1 r (by omega) h
          · rw [if_neg hq] at h ⊢
            exact h

theorem probeFuel_key_spec (N : Nat) :
    ∀ (disk : List String), disk.length ≤ N →
      ∀ (q : String) (kq : Nat × Nat), verKey q = some kq →
        ∃ k, k ≤ disk.length ∧ ∃ r, nextChain k q = some r ∧
          probeFuel disk (disk.length + 1) q = some r ∧ r ∉ disk ∧
          (∀ j, j < k → ∀ s, nextChain j q = some s → s ∈ disk) := by
  induction N with
  | zero =>
      intro disk hlen q kq hkq
      have hnil : disk = [] := List.eq_nil_of_length_eq_zero (by omega)
      subst hnil
      refine ⟨0, by omega, q, rfl, ?_, by simp,
        fun j hj => absurd hj (by omega)⟩
      simp [probeFuel]
  | succ n ih =>
      intro disk hlen q kq hkq
      by_cases hmem : q ∈ disk
      · obtain ⟨q1, k1key, hnext, hk1, hlt⟩ := verKey_step q kq hkq
        have hpos : 1 ≤ disk.length := by
          cases disk with
          | nil => simp at hmem
          | cons a t => simp
        have herase_len : (disk.erase q).length = disk.length - 1 :=
          List.length_erase_of_mem hmem
        obtain ⟨k1, hk1le, r, hchain1, hprobe1, hout1, hin1⟩ :=
          ih (disk.erase q) (by omega) q1 k1key hk1
        have hrgt : ∃ kr, verKey r = some kr ∧ keyLt kq kr := by
          obtain ⟨r2, kr, hr2eq, hkr, hrel⟩ := nextChain_key k1 q1 k1key hk1
          rw [hchain1] at hr2eq
          have hrr := Option.some_inj.1 hr2eq
          subst hrr
          refine ⟨kr, hkr, ?_⟩
          rcases hrel with he | h2
          · exact he ▸ hlt
          · exact keyLt_trans _ _ _ hlt h2
        refine ⟨k1 + 1, by omega, r, ?_, ?_, ?_, ?_⟩
        · show (match getNextVersionPath q with
            | some q2 => nextChain k1 q2
            | none => none) = some r
          rw [hnext]
          exact hchain1
        · have hstep : probeFuel disk (disk.length + 1) q =
              probeFuel disk disk.length q1 := by
            simp only [probeFuel]
            rw [if_pos hmem, hnext]
          rw [hstep]
          have htrans : probeFuel disk disk.length q1 =
              probeFuel (disk.erase q) disk.length q1 :=
            probeFuel_erase_key disk q kq hkq disk.length q1 k1key hk1 hlt
          rw [htrans]
          have hlen2 : disk.length = (disk.erase q).length + 1 := by omega
          rw [hlen2]
          exact hprobe1
        · intro habs
          obtain ⟨kr, hkr, hqr⟩ := hrgt
          have hne : r ≠ q := keyLt_ne_of_keys q r kq kr hkq hkr hqr
          exact hout1 ((List.mem_erase_of_ne hne).2 habs)
        · intro j hj s hs
          match j, hs with
          | 0, hs =>
              have hsq := Option.some_inj.1 hs.symm
              subst hsq
              exact hmem
          | j0 + 1, hs =>
              have hs2 : nextChain j0 q1 = some s := by
                have hdef : nextChain (j0 + 1) q =
                    (match getNextVersionPath q with
                      | some q2 => nextChain j0 q2
                      | none => none) := rfl
                rw [hdef, hnext] at hs
                exact hs
              exact List.mem_of_mem_erase (hin1 j0 (by omega) s hs2)
      · refine ⟨0, by omega, q, rfl, ?_, hmem,
          fun j hj => absurd hj (by omega)⟩
        simp only [probeFuel]
        rw [if_neg hmem]

/-- C8: for every finite disk and every starting path with a detectable
version number, the probing loop of `save_to_next_version` terminates within
`disk.length + 1` iterations (and at any larger fuel with the same
result): the save callback receives exactly the first non-existing path in
the version chain started at `get_next_version_path(path)`, every earlier
chain entry existing on disk; moreover `get_next_version_path` never
returns `None` at any probed chain entry, so the mid-loop abort ("cannot
determine next version", modelled as `none`) is unreachable.  Termination
does not need the version values themselves to increase monotonically
(they may jump, as in the `a.v1v5x` family): the pair (match position,
version value) strictly increases lexicographically with every bump, so
the chain never revisits a path and at most `disk.length` entries can
exist on disk. -/
theorem c8_save_to_next_version (disk : List String) (path : String)
    (v : Nat) (hv : getVersionNumber path = some v) :
    ∃ nvp r k, getNextVersionPath path = some nvp ∧
      k ≤ disk.length ∧ nextChain k nvp = some r ∧
      saveToNextVersion disk (disk.length + 1) path = some r ∧
      r ∉ disk ∧
      (∀ j, j < k → ∀ s, nextChain j nvp = some s → s ∈ disk) ∧
      (∀ f, disk.length + 1 ≤ f → saveToNextVersion disk f path = some r) ∧
      (∀ j, j ≤ k → ∀ s, nextChain j nvp = some s →
        getNextVersionPath s ≠ none) := by
  have hkey : ∃ kp, verKey path = some kp := by
    unfold getVersionNumber getVersionNumberL at hv
    cases hfs : findVersionSplit (fileNameOf path.data) with
    | none => rw [hfs] at hv; simp at hv
    | some x =>
        exact ⟨(x.1.length, digitsToNat x.2.2.1), by
          unfold verKey
          rw [hfs]
          rfl⟩
  obtain ⟨kp, hkp⟩ := hkey
  obtain ⟨nvp, knvp, hnext, hknvp, _⟩ := verKey_step path kp hkp
  obtain ⟨k, hk, r, hchain, hprobe, hout, hin⟩ :=
    probeFuel_key_spec disk.length disk (le_refl _) nvp knvp hknvp
  have hsave : ∀ f, saveToNextVersion disk f path = probeFuel disk f nvp := by
    intro f
    unfold saveToNextVersion
    rw [hv, hnext]
  refine ⟨nvp, r, k, hnext, hk, hchain, ?_, hout, hin, ?_, ?_⟩
  · rw [hsave]
    exact hprobe
  · intro f hf
    rw [hsave]
    exact probeFuel_mono disk (disk.length + 1) f nvp r hf hprobe
  · intro j _ s hs
    obtain ⟨s2, ks, hs2eq, hks, _⟩ := nextChain_key j nvp knvp hknvp
    rw [hs] at hs2eq
    have hss := Option.some_inj.1 hs2eq
    subst hss
    obtain ⟨s1, ks1, hs1, _, _⟩ := verKey_step s ks hks
    rw [hs1]
    simp

/-- C8 witness: probing from `scene.v001.ma` over a disk already holding
v002 and v003 saves to `scene.v004.ma` in two probe steps. -/
theorem c8_save_to_next_version_witness :
    ∃ nvp r k, getNextVersionPath "scene.v001.ma" = some nvp ∧
      k ≤ (["scene.v002.ma", "scene.v003.ma"] : List String).length ∧
      nextChain k nvp = some r ∧
      saveToNextVersion ["scene.v002.ma", "scene.v003.ma"]
        ((["scene.v002.ma", "scene.v003.ma"] : List String).length + 1)
        "scene.v001.ma" = some r ∧
      r ∉ (["scene.v002.ma", "scene.v003.ma"] : List String) ∧
      (∀ j, j < k → ∀ s, nextChain j nvp = some s →
        s ∈ (["scene.v002.ma", "scene.v003.ma"] : List String)) ∧
      (∀ f, (["scene.v002.ma", "scene.v003.ma"] : List String).length + 1 ≤ f →
        saveToNextVersion ["scene.v002.ma", "scene.v003.ma"] f
          "scene.v001.ma" = some r) ∧
      (∀ j, j ≤ k → ∀ s, nextChain j nvp = some s →
        getNextVersionPath s ≠ none) :=
  c8_save_to_next_version ["scene.v002.ma", "scene.v003.ma"] "scene.v001.ma"
    1 (by decide)

/-! ## `FRAME_REGEX` and the frame-spec regex

`FRAME_REGEX = (.*)([._-])(\d+)\.(\S+)$`: rightmost separator followed by a
nonempty digit run, a literal dot and a nonempty whitespace-free extension.
`get_path_for_frame` builds `SPEC_REGEX` out of the literal frame spec; with
no templates configured the spec defaults to `%04d`. -/

def frameMatchHere : List Char → Option (Char × List Char × List Char)
  | c :: rest =>
    if isSepChar c then
      let ds := rest.takeWhile isDigitChar
      let rem := rest.dropWhile isDigitChar
      if ds.isEmpty then none
      else if rem.head? == some '.' then
        (if rem.tail.isEmpty then none
         else (if noSpace rem.tail then some (c, ds, rem.tail) else none))
      else none
    else none
  | [] => none

def findFrameSplit : List Char → Option (List Char × Char × List Char × List Char)
  | [] => none
  | c :: cs =>
    match findFrameSplit cs with
    | some (p, s, fr, e) => some (c :: p, s, fr, e)
    | none =>
      match frameMatchHere (c :: cs) with
      | some (s, fr, e) => some ([], s, fr, e)
      | none => none

/-- The default frame spec `%04d` used when neither a matching template nor
a `SEQ` template key is configured. -/
def spec04 : List Char := "%04d".data

def specMatchHere (spec : List Char) : List Char → Option (Char × List Char)
  | c :: rest =>
    if isSepChar c && spec.isPrefixOf rest then
      let after := rest.drop spec.length
      if after.head? == some '.' then
        (if after.tail.isEmpty then none
         else (if noSpace after.tail then some (c, after.tail) else none))
      else none
    else none
  | [] => none

def findSpecSplit (spec : List Char) : List Char → Option (List Char × Char × List Char)
  | [] => none
  | c :: cs =>
    match findSpecSplit spec cs with
    | some (p, s, e) => some (c :: p, s, e)
    | none =>
      match specMatchHere spec (c :: cs) with
      | some (s, e) => some ([], s, e)
      | none => none

/-- `BasicPathInfo.get_path_for_frame` (path_info.py:157-240), zero-config:
the frame spec defaults to `%04d`, and the matched spec token is replaced by
the rendered frame value. -/
def getPathForFrameL (path : List Char) (frame : List Char) : Option (List Char) :=
  match findSpecSplit spec04 (fileNameOf path) with
  | none => none
  | some (pre, sep, ext) =>
      some (folderOf path ++ (pre ++ sep :: (frame ++ '.' :: ext)))

def getPathForFrame (p : String) (frame : String) : Option String :=
  (getPathForFrameL p.data frame.data).map (fun l => String.mk l)

/-- Frame collapse step of `get_publish_name`: replace a matched trailing
frame number by a run of `#` of the same width. -/
def collapseFrame (fn : List Char) : List Char :=
  match findFrameSplit fn with
  | some (pre, sep, fr, ext) =>
      pre ++ sep :: (List.replicate fr.length '#' ++ '.' :: ext)
  | none => fn

/-- Version strip step of `get_publish_name`: drop a matched version token,
keeping the extension group when it matched. -/
def stripVersion (fn2 : List Char) : List Char :=
  match findVersionSplit fn2 with
  | some (pre, _, _, rem) => pre ++ newRemOf rem
  | none => fn2

/-- `BasicPathInfo.get_publish_name` (path_info.py:43-101): substitute frame
1001 for a `%04d` spec if present, then collapse a trailing frame number to
`#`s of the same width, then strip a trailing version token, returning the
resulting file name. -/
def seqSubstitute (path : List Char) : List Char :=
  match findSpecSplit spec04 (fileNameOf path) with
  | some (pre, sep, ext) =>
      folderOf path ++ (pre ++ sep :: ("1001".data ++ '.' :: ext))
  | none => path

def getPublishNameL (path : List Char) : List Char :=
  stripVersion (collapseFrame (fileNameOf (seqSubstitute path)))

def getPublishName (p : String) : String :=
  String.mk (getPublishNameL p.data)

theorem frameMatchHere_some_decomp (l : List Char) (s : Char)
    (fr e : List Char) (h : frameMatchHere l = some (s, fr, e)) :
    l = s :: (fr ++ '.' :: e) ∧ isSepChar s = true ∧ fr ≠ [] ∧
      (∀ c ∈ fr, isDigitChar c = true) ∧ e ≠ [] ∧ noSpace e = true := by
  cases l with
  | nil => simp [frameMatchHere] at h
  | cons c rest =>
      simp only [frameMatchHere] at h
      by_cases hc : isSepChar c = true
      · rw [if_pos hc] at h
        by_cases hds : (rest.takeWhile isDigitChar).isEmpty = true
        · rw [if_pos hds] at h
          simp at h
        · rw [if_neg hds] at h
          cases hrem : rest.dropWhile isDigitChar with
          | nil => rw [hrem] at h; simp at h
          | cons r0 t =>
              rw [hrem] at h
              by_cases hr0 : ((r0 :: t).head? == some '.') = true
              · rw [if_pos hr0] at h
                have hr0' : r0 = '.' := by
                  have := eq_of_beq hr0
                  simpa using this
                by_cases ht : (r0 :: t).tail.isEmpty = true
                · rw [if_pos ht] at h
                  simp at h
                · rw [if_neg ht] at h
                  by_cases hns : noSpace (r0 :: t).tail = true
                  · rw [if_pos hns] at h
                    simp only [List.tail_cons, Option.some.injEq,
                      Prod.mk.injEq] at h
                    obtain ⟨h1, h2, h3⟩ := h
                    subst h1
                    refine ⟨?_, hc, ?_, ?_, ?_, ?_⟩
                    · have hglue := List.takeWhile_append_dropWhile
                        (p := isDigitChar) (l := rest)
                      rw [hrem] at hglue
                      have : rest = fr ++ '.' :: e := by
                        rw [← hglue, h2, hr0', h3]
                      rw [this]
                    · rw [← h2]
                      intro habs
                      rw [habs] at hds
                      exact hds rfl
                    · intro x hx
                      rw [← h2] at hx
                      exact List.mem_takeWhile_imp hx
                    · rw [← h3]
                      intro habs
                      simp [habs] at ht
                    · rw [← h3]
                      simpa using hns
                  · rw [if_neg hns] at h
                    simp at h
              · rw [if_neg hr0] at h
                simp at h
      · rw [if_neg hc] at h
        simp at h

theorem findFrameSplit_some_decomp (l p : List Char) (s : Char)
    (fr e : List Char) (h : findFrameSplit l = some (p, s, fr, e)) :
    l = p ++ s :: (fr ++ '.' :: e) ∧ isSepChar s = true ∧ fr ≠ [] ∧
      (∀ c ∈ fr, isDigitChar c = true) ∧ e ≠ [] ∧ noSpace e = true := by
  induction l generalizing p with
  | nil => simp [findFrameSplit] at h
  | cons c cs ih =>
      rw [findFrameSplit] at h
      cases hfs : findFrameSplit cs with
      | some x =>
          obtain ⟨p', s', fr', e'⟩ := x
          rw [hfs] at h
          simp only [Option.some.injEq, Prod.mk.injEq] at h
          obtain ⟨h1, h2, h3, h4⟩ := h
          subst h2
          subst h3
          subst h4
          obtain ⟨hdec, hrest⟩ := ih p' hfs
          exact ⟨by rw [← h1, hdec]; rfl, hrest⟩
      | none =>
          rw [hfs] at h
          cases hvm : frameMatchHere (c :: cs) with
          | none => rw [hvm] at h; simp at h
          | some y =>
              obtain ⟨s0, fr0, e0⟩ := y
              rw [hvm] at h
              simp only [Option.some.injEq, Prod.mk.injEq] at h
              obtain ⟨h1, h2, h3, h4⟩ := h
              subst h2
              subst h3
              subst h4
              obtain ⟨hdec, hrest⟩ := frameMatchHere_some_decomp _ _ _ _ hvm
              exact ⟨by rw [← h1, hdec]; rfl, hrest⟩

theorem takeWhile_all (p : Char → Bool) (l : List Char)
    (h : ∀ c ∈ l, p c = true) : l.takeWhile p = l := by
  have := takeWhile_append_all p l [] h
  simpa using this

theorem fileNameOf_of_no_slash (l : List Char) (h : '/' ∉ l) :
    fileNameOf l = l := by
  unfold fileNameOf
  rw [takeWhile_all]
  · exact List.reverse_reverse l
  · intro c hc
    simp only [ne_eq, bne_iff_ne]
    intro hcs
    exact h (by simpa [hcs] using List.mem_reverse.1 hc)

theorem collapseFrame_no_slash (fn : List Char) (h : '/' ∉ fn) :
    '/' ∉ collapseFrame fn := by
  unfold collapseFrame
  cases hfs : findFrameSplit fn with
  | none => exact h
  | some x =>
      obtain ⟨pre, sep, fr, ext⟩ := x
      obtain ⟨hdec, hsep, hfr, hdig, hext, hns⟩ :=
        findFrameSplit_some_decomp _ _ _ _ _ hfs
      intro hmem
      rcases List.mem_append.1 hmem with hmem | hmem
      · exact h (hdec ▸ List.mem_append_left _ hmem)
      · rcases List.mem_cons.1 hmem with hmem | hmem
        · exact h (hdec ▸ List.mem_append_right _ (hmem ▸ List.mem_cons_self _ _))
        · rcases List.mem_append.1 hmem with hmem | hmem
          · have := List.eq_of_mem_replicate hmem
            simp at this
          · rcases List.mem_cons.1 hmem with hmem | hmem
            · simp at hmem
            · refine h (hdec ▸ List.mem_append_right _ ?_)
              exact List.mem_cons_of_mem _
                (List.mem_append_right _ (List.mem_cons_of_mem _ hmem))

theorem stripVersion_no_slash (fn : List Char) (h : '/' ∉ fn) :
    '/' ∉ stripVersion fn := by
  unfold stripVersion
  cases hfs : findVersionSplit fn with
  | none => exact h
  | some x =>
      obtain ⟨pre, sep, d, rem⟩ := x
      obtain ⟨vc, hdec, hsep, hv, hd, hdig, hns, _⟩ :=
        findVersionSplit_some_decomp _ _ _ _ _ hfs
      intro hmem
      rcases List.mem_append.1 hmem with hmem | hmem
      · exact h (hdec ▸ List.mem_append_left _ hmem)
      · rcases mem_newRemOf rem _ hmem with h0 | h0
        · simp at h0
        · refine h (hdec ▸ List.mem_append_right _ ?_)
          exact List.mem_cons_of_mem _ (List.mem_cons_of_mem _
            (List.mem_append_right _ h0))

theorem getPublishNameL_no_slash (path : List Char) :
    '/' ∉ getPublishNameL path :=
  stripVersion_no_slash _ (collapseFrame_no_slash _ (fileNameOf_no_slash _))

/-- The derived name contains no `%04d` frame-spec token, no frame-number
token and no version token: the defining property of an already-derived
publish name. -/
def noRemainingTokens (name : List Char) : Bool :=
  (findSpecSplit spec04 name).isNone && (findFrameSplit name).isNone &&
    (findVersionSplit name).isNone

/-- C9: publish-name derivation is idempotent on already-derived names: for
every path whose derived name contains no remaining version token, no
remaining frame-number token, and no frame-spec token (the frame number
having been collapsed to `#`s), re-deriving returns the name unchanged. -/
theorem c9_publish_name_idempotent (p : String)
    (h : noRemainingTokens (getPublishNameL p.data) = true) :
    getPublishName (getPublishName p) = getPublishName p := by
  unfold noRemainingTokens at h
  simp only [Bool.and_eq_true, Option.isNone_iff_eq_none] at h
  obtain ⟨⟨hspec, hframe⟩, hver⟩ := h
  have hnos : '/' ∉ getPublishNameL p.data := getPublishNameL_no_slash p.data
  have hfid : fileNameOf (getPublishNameL p.data) = getPublishNameL p.data :=
    fileNameOf_of_no_slash _ hnos
  have h1 : seqSubstitute (getPublishNameL p.data) = getPublishNameL p.data := by
    unfold seqSubstitute
    rw [hfid, hspec]
  have h2 : collapseFrame (getPublishNameL p.data) = getPublishNameL p.data := by
    unfold collapseFrame
    rw [hframe]
  have h3 : stripVersion (getPublishNameL p.data) = getPublishNameL p.data := by
    unfold stripVersion
    rw [hver]
  have hdata : getPublishNameL (String.mk (getPublishNameL p.data)).data =
      getPublishNameL p.data := by
    rw [show (String.mk (getPublishNameL p.data)).data = getPublishNameL p.data
      from rfl]
    show stripVersion (collapseFrame (fileNameOf
      (seqSubstitute (getPublishNameL p.data)))) = getPublishNameL p.data
    rw [h1, hfid, h2, h3]
  exact congrArg String.mk hdata

/-- C9 witness: the spec scenario `/proj/shotA/scene.v002.ma` derives to
`scene.ma`, on which derivation is a no-op. -/
theorem c9_publish_name_idempotent_witness :
    getPublishName (getPublishName "/proj/shotA/scene.v002.ma") =
      getPublishName "/proj/shotA/scene.v002.ma" ∧
    getPublishName "/proj/shotA/scene.v002.ma" = "scene.ma" :=
  ⟨c9_publish_name_idempotent "/proj/shotA/scene.v002.ma" (by decide),
   by decide⟩

/-! ## `_get_publish_version` (publish.py:878-898)

The publish version of an item is resolved recursively: the root resolves
to `None`; otherwise, if the parent's resolved version is truthy (not
`None` and nonzero - Python truthiness), it is returned unchanged
("children should match their parent's publish version"), and only
otherwise is the item's own `fields.get("version", 1)` used.  An item is
modelled by its parent chain and the optional `version` entry of its
`fields` dictionary. -/

inductive VItem where
  | root : VItem
  | node (parent : VItem) (fieldsVersion : Option Int) : VItem
deriving DecidableEq

def getPublishVersion : VItem → Option Int
  | .root => none
  | .node p fv =>
    match getPublishVersion p with
    | some v => if v ≠ 0 then some v else some (fv.getD 1)
    | none => some (fv.getD 1)

/-- Python truthiness of a resolved version (`if parent_version:`). -/
def truthyVersion : Option Int → Bool
  | some v => v != 0
  | none => false

def ancestorsOf : VItem → List VItem
  | .root => []
  | .node p _ => p :: ancestorsOf p

/-- The nearest strict ancestor whose resolved publish version is truthy. -/
def nearestVersionedAncestor (i : VItem) : Option VItem :=
  (ancestorsOf i).find? (fun a => truthyVersion (getPublishVersion a))

theorem getPublishVersion_node_truthy (p : VItem) (fv : Option Int)
    (h : truthyVersion (getPublishVersion p) = true) :
    getPublishVersion (VItem.node p fv) = getPublishVersion p := by
  show (match getPublishVersion p with
    | some v => if v ≠ 0 then some v else some (fv.getD 1)
    | none => some (fv.getD 1)) = getPublishVersion p
  unfold truthyVersion at h
  cases hv : getPublishVersion p with
  | none => rw [hv] at h; simp at h
  | some v =>
      rw [hv] at h
      have hvne : ¬v = 0 := by simpa using h
      simp [hvne]

theorem getPublishVersion_node_falsy (p : VItem) (fv : Option Int)
    (h : truthyVersion (getPublishVersion p) = false) :
    getPublishVersion (VItem.node p fv) = some (fv.getD 1) := by
  unfold truthyVersion at h
  show (match getPublishVersion p with
    | some v => if v ≠ 0 then some v else some (fv.getD 1)
    | none => some (fv.getD 1)) = some (fv.getD 1)
  cases hv : getPublishVersion p with
  | none => rfl
  | some v =>
      rw [hv] at h
      have : v = 0 := by simpa using h
      simp [this]

theorem ancestors_not_truthy (p : VItem)
    (h : truthyVersion (getPublishVersion p) = false) :
    ∀ a ∈ ancestorsOf p, truthyVersion (getPublishVersion a) = false := by
  induction p with
  | root => intro a ha; simp [ancestorsOf] at ha
  | node q fw ih =>
      intro a ha
      have hq : truthyVersion (getPublishVersion q) = false := by
        by_contra habs
        have hq' : truthyVersion (getPublishVersion q) = true := by
          cases hqq : truthyVersion (getPublishVersion q) with
          | false => exact absurd hqq habs
          | true => rfl
        rw [getPublishVersion_node_truthy q fw hq'] at h
        rw [h] at hq'
        cases hq'
      rcases List.mem_cons.1 ha with ha | ha
      · rw [ha]
        exact hq
      · exact ih hq a ha

/-- C3: a non-root item's resolved publish version equals the resolved
version of its nearest ancestor with a truthy resolved version; only when
no such ancestor exists does the item fall back to its own fields'
version entry, defaulting to 1.  In particular a child with own
path-derived version 1 under a parent resolving to 3 resolves to 3. -/
theorem c3_version_cascade (p : VItem) (fv : Option Int) :
    (∀ a, nearestVersionedAncestor (VItem.node p fv) = some a →
      getPublishVersion (VItem.node p fv) = getPublishVersion a) ∧
    (nearestVersionedAncestor (VItem.node p fv) = none →
      getPublishVersion (VItem.node p fv) = some (fv.getD 1)) ∧
    getPublishVersion
      (VItem.node (VItem.node VItem.root (some 3)) (some 1)) = some 3 := by
  refine ⟨?_, ?_, by decide⟩
  · intro a ha
    unfold nearestVersionedAncestor ancestorsOf at ha
    rw [List.find?_cons] at ha
    cases ht : truthyVersion (getPublishVersion p) with
    | true =>
        rw [ht] at ha
        simp only [Option.some.injEq] at ha
        rw [← ha]
        exact getPublishVersion_node_truthy p fv ht
    | false =>
        rw [ht] at ha
        have : (ancestorsOf p).find?
            (fun a => truthyVersion (getPublishVersion a)) = none :=
          List.find?_eq_none.2 (fun x hx => by
            rw [ancestors_not_truthy p ht x hx]
            simp)
        rw [this] at ha
        cases ha
  · intro hnone
    unfold nearestVersionedAncestor ancestorsOf at hnone
    rw [List.find?_cons] at hnone
    cases ht : truthyVersion (getPublishVersion p) with
    | true => rw [ht] at hnone; cases hnone
    | false => exact getPublishVersion_node_falsy p fv ht

/-- C3 witness: the concrete parent-version-3 / child-version-1 instance,
resolved through the nearest-versioned-ancestor characterization. -/
theorem c3_version_cascade_witness :
    getPublishVersion (VItem.node (VItem.node VItem.root (some 3)) (some 1)) =
      getPublishVersion (VItem.node VItem.root (some 3)) ∧
    getPublishVersion (VItem.node VItem.root (some 3)) = some 3 :=
  ⟨(c3_version_cascade (VItem.node VItem.root (some 3)) (some 1)).1
      (VItem.node VItem.root (some 3)) (by decide),
   by decide⟩

/-! ## `dict_merge` (api/plugins/setting.py:94-108)

Recursive dict merge: each key of `merge_dct` is written into `dct`, except
that when both sides hold dictionaries at the key the merge recurses
instead of replacing the whole value.  Python dict values are modelled as
atoms or dictionaries (association lists with unique keys). -/

inductive PyVal where
  | atom (s : String) : PyVal
  | dict (entries : List (String × PyVal)) : PyVal

/-- `dct[k] = v`: replace in place, or append when the key is new. -/
def setKey : List (String × PyVal) → String → PyVal → List (String × PyVal)
  | [], k, v => [(k, v)]
  | (k0, v0) :: t, k, v =>
    if k0 == k then (k, v) :: t else (k0, v0) :: setKey t k v

mutual

def dictMerge (dct : List (String × PyVal)) :
    List (String × PyVal) → List (String × PyVal)
  | [] => dct
  | (k, v) :: rest => dictMerge (setKey dct k (mergeVal (List.lookup k dct) v)) rest
termination_by m => sizeOf m

/-- The value written for one key: when both the existing and the incoming
value are dictionaries, recurse; otherwise the incoming value replaces. -/
def mergeVal : Option PyVal → PyVal → PyVal
  | some (PyVal.dict d1), PyVal.dict d2 => PyVal.dict (dictMerge d1 d2)
  | _, v => v
termination_by _ v => sizeOf v

end

theorem beqStr_false (a b : String) (h : a ≠ b) : (a == b) = false := by
  cases hb : a == b with
  | true => exact absurd (eq_of_beq hb) h
  | false => rfl

theorem dictMerge_nil (d : List (String × PyVal)) : dictMerge d [] = d := by
  simp only [dictMerge]

theorem dictMerge_cons (d : List (String × PyVal)) (k : String) (v : PyVal)
    (rest : List (String × PyVal)) :
    dictMerge d ((k, v) :: rest) =
      dictMerge (setKey d k (mergeVal (List.lookup k d) v)) rest := by
  simp only [dictMerge]

theorem mergeVal_dict_dict (d1 d2 : List (String × PyVal)) :
    mergeVal (some (PyVal.dict d1)) (PyVal.dict d2) =
      PyVal.dict (dictMerge d1 d2) := by
  simp only [mergeVal]

theorem mergeVal_none (v : PyVal) : mergeVal none v = v := by
  simp only [mergeVal]

theorem mergeVal_atom_left (s : String) (v : PyVal) :
    mergeVal (some (PyVal.atom s)) v = v := by
  cases v <;> simp only [mergeVal]

theorem mergeVal_atom_right (o : Option PyVal) (s : String) :
    mergeVal o (PyVal.atom s) = PyVal.atom s := by
  match o with
  | none => simp only [mergeVal]
  | some (PyVal.atom s0) => simp only [mergeVal]
  | some (PyVal.dict d1) => simp only [mergeVal]

theorem lookup_setKey_self (d : List (String × PyVal)) (k : String)
    (v : PyVal) : List.lookup k (setKey d k v) = some v := by
  induction d with
  | nil => simp [setKey, List.lookup]
  | cons kv t ih =>
      obtain ⟨k0, v0⟩ := kv
      unfold setKey
      by_cases hk : (k0 == k) = true
      · rw [if_pos hk]
        simp [List.lookup]
      · rw [if_neg hk]
        rw [List.lookup_cons]
        have hne : k ≠ k0 := fun he => hk (by rw [he]; exact beq_self_eq_true k0)
        rw [beqStr_false k k0 hne]
        exact ih

theorem lookup_setKey_ne (d : List (String × PyVal)) (k k' : String)
    (v : PyVal) (hne : k' ≠ k) :
    List.lookup k' (setKey d k v) = List.lookup k' d := by
  induction d with
  | nil =>
      simp only [setKey, List.lookup]
      rw [beqStr_false k' k hne]
  | cons kv t ih =>
      obtain ⟨k0, v0⟩ := kv
      unfold setKey
      by_cases hk : (k0 == k) = true
      · rw [if_pos hk]
        rw [List.lookup_cons, List.lookup_cons]
        have hne0 : k' ≠ k0 := fun he => hne (by rw [he, eq_of_beq hk])
        rw [beqStr_false k' k hne, beqStr_false k' k0 hne0]
      · rw [if_neg hk]
        rw [List.lookup_cons, List.lookup_cons]
        cases hk' : (k' == k0) with
        | true => rfl
        | false => exact ih

theorem lookup_eq_none_of_not_mem_keys (d : List (String × PyVal))
    (k : String) (h : k ∉ d.map Prod.fst) : List.lookup k d = none := by
  induction d with
  | nil => rfl
  | cons kv t ih =>
      obtain ⟨k0, v0⟩ := kv
      rw [List.lookup_cons]
      have hne : k ≠ k0 := by
        intro he
        exact h (by simp [he])
      rw [beqStr_false k k0 hne]
      exact ih (fun hm => h (by simp; right; simpa using hm))

/-- C7: merging a narrower settings fragment `m` into a broader one `d` is
recursive: at every key, a key absent from `m` keeps `d`'s value (sibling
retention), a key present in `m` overrides via `mergeVal`, and `mergeVal`
merges dictionary values recursively (child keys override parent keys at
the same nested path) instead of replacing the whole dictionary, while
non-dictionary overrides replace. -/
theorem c7_dict_merge_recursive (d m : List (String × PyVal))
    (hm : (m.map Prod.fst).Nodup) (k : String) :
    (List.lookup k (dictMerge d m) =
      match List.lookup k m with
      | none => List.lookup k d
      | some v => some (mergeVal (List.lookup k d) v)) ∧
    (∀ d1 d2, mergeVal (some (PyVal.dict d1)) (PyVal.dict d2) =
      PyVal.dict (dictMerge d1 d2)) ∧
    (∀ v, mergeVal none v = v) ∧
    (∀ s v, mergeVal (some (PyVal.atom s)) v = v) ∧
    (∀ o s, mergeVal o (PyVal.atom s) = PyVal.atom s) := by
  refine ⟨?_, mergeVal_dict_dict, mergeVal_none, mergeVal_atom_left,
    mergeVal_atom_right⟩
  induction m generalizing d with
  | nil =>
      rw [dictMerge_nil]
      rfl
  | cons kv rest ih =>
      obtain ⟨k0, v0⟩ := kv
      have hk0 : k0 ∉ rest.map Prod.fst := by
        simp only [List.map_cons, List.nodup_cons] at hm
        exact hm.1
      have hrest : (rest.map Prod.fst).Nodup := by
        simp only [List.map_cons, List.nodup_cons] at hm
        exact hm.2
      rw [dictMerge_cons, ih _ hrest]
      by_cases hkk : k = k0
      · subst hkk
        have h1 : List.lookup k rest = none :=
          lookup_eq_none_of_not_mem_keys rest k hk0
        have h2 : List.lookup k ((k, v0) :: rest) = some v0 := by
          simp [List.lookup]
        rw [h1, h2, lookup_setKey_self]
      · have h1 : List.lookup k ((k0, v0) :: rest) = List.lookup k rest := by
          rw [List.lookup_cons, beqStr_false k k0 hkk]
        rw [h1, lookup_setKey_ne d k0 k _ hkk]

/-- C7 witness: item-type settings merged over plugin defaults: the
untouched top-level sibling and the untouched nested sibling are retained
while the nested key is overridden. -/
theorem c7_dict_merge_recursive_witness :
    List.lookup "publish_type"
      (dictMerge
        [("publish_type", PyVal.atom "File"),
         ("n", PyVal.dict [("x", PyVal.atom "1"), ("y", PyVal.atom "2")])]
        [("n", PyVal.dict [("x", PyVal.atom "3")])]) =
      some (PyVal.atom "File") ∧
    List.lookup "n"
      (dictMerge
        [("publish_type", PyVal.atom "File"),
         ("n", PyVal.dict [("x", PyVal.atom "1"), ("y", PyVal.atom "2")])]
        [("n", PyVal.dict [("x", PyVal.atom "3")])]) =
      some (PyVal.dict (dictMerge [("x", PyVal.atom "1"), ("y", PyVal.atom "2")]
        [("x", PyVal.atom "3")])) ∧
    List.lookup "y" (dictMerge [("x", PyVal.atom "1"), ("y", PyVal.atom "2")]
      [("x", PyVal.atom "3")]) = some (PyVal.atom "2") ∧
    List.lookup "x" (dictMerge [("x", PyVal.atom "1"), ("y", PyVal.atom "2")]
      [("x", PyVal.atom "3")]) = some (PyVal.atom "3") := by
  refine ⟨?_, ?_, ?_, ?_⟩
  · have h := (c7_dict_merge_recursive
      [("publish_type", PyVal.atom "File"),
       ("n", PyVal.dict [("x", PyVal.atom "1"), ("y", PyVal.atom "2")])]
      [("n", PyVal.dict [("x", PyVal.atom "3")])]
      (by decide) "publish_type").1
    rw [h]
    rfl
  · have h := (c7_dict_merge_recursive
      [("publish_type", PyVal.atom "File"),
       ("n", PyVal.dict [("x", PyVal.atom "1"), ("y", PyVal.atom "2")])]
      [("n", PyVal.dict [("x", PyVal.atom "3")])]
      (by decide) "n").1
    rw [h]
    show some (mergeVal (some (PyVal.dict [("x", PyVal.atom "1"),
      ("y", PyVal.atom "2")])) (PyVal.dict [("x", PyVal.atom "3")])) = _
    rw [mergeVal_dict_dict]
  · have h := (c7_dict_merge_recursive
      [("x", PyVal.atom "1"), ("y", PyVal.atom "2")]
      [("x", PyVal.atom "3")] (by decide) "y").1
    rw [h]
    rfl
  · have h := (c7_dict_merge_recursive
      [("x", PyVal.atom "1"), ("y", PyVal.atom "2")]
      [("x", PyVal.atom "3")] (by decide) "x").1
    rw [h]
    show some (mergeVal (some (PyVal.atom "1")) (PyVal.atom "3")) = _
    rw [mergeVal_atom_left]

/-! ## `TaskGenerator.execute` (task_generator.py:24-91)

The generator walks the publish tree (pre-order - modelled from the spec:
"Traversal order: pre-order over the tree", since the tree iterator itself
lives outside the hooks), skipping items whose name matches no filter, that
are inactive, or that have no tasks, and yielding each remaining item's
tasks that match a task filter and are active.  `fnmatch.fnmatch` is
modelled by a glob matcher (`*`, `?`, `[...]` classes; POSIX `normcase` is
the identity); the generator/specification comparison is parametric in the
matcher.  The matcher carries a fuel argument (one step consumes at least
one pattern or subject character, so `|p| + |s| + 1` steps suffice) to stay
kernel-computable. -/

def spanUntilRBracket : List Char → Option (List Char × List Char)
  | [] => none
  | c :: t =>
    if c == ']' then some ([], t)
    else (spanUntilRBracket t).map (fun x => (c :: x.1, x.2))

/-- Parse a `[...]` class body (after the opening bracket): optional `!`
negation, with a leading `]` taken literally, per `fnmatch.translate`. -/
def splitClass (l : List Char) : Option (Bool × List Char × List Char) :=
  match l with
  | '!' :: c :: t =>
      (spanUntilRBracket t).map (fun x => (true, c :: x.1, x.2))
  | c :: t =>
      if c == '!' then none
      else (spanUntilRBracket t).map (fun x => (false, c :: x.1, x.2))
  | [] => none

def classItemsMatch : List Char → Char → Bool
  | a :: '-' :: b :: rest, c =>
      (decide (a ≤ c) && decide (c ≤ b)) || classItemsMatch rest c
  | a :: rest, c => (a == c) || classItemsMatch rest c
  | [], _ => false

def globMatchGo : Nat → List Char → List Char → Bool
  | 0, _, _ => false
  | fuel + 1, p, s =>
    match p, s with
    | [], [] => true
    | [], _ :: _ => false
    | '*' :: ps, [] => globMatchGo fuel ps []
    | '*' :: ps, c :: cs =>
        globMatchGo fuel ps (c :: cs) || globMatchGo fuel ('*' :: ps) cs
    | '?' :: ps, _ :: cs => globMatchGo fuel ps cs
    | '[' :: ps, c :: cs =>
      (match splitClass ps with
        | some (neg, items, rest) =>
            (if neg then !(classItemsMatch items c) else classItemsMatch items c)
              && globMatchGo fuel rest cs
        | none => (('[' : Char) == c) && globMatchGo fuel ps cs)
    | pc :: ps, c :: cs => (pc == c) && globMatchGo fuel ps cs
    | _ :: _, [] => false

/-- `fnmatch.fnmatch(name, pattern)` on POSIX. -/
def fnmatch (name pat : String) : Bool :=
  globMatchGo (pat.data.length + name.data.length + 1) pat.data name.data

structure PTask where
  name : String
  active : Bool
deriving DecidableEq

inductive PItem where
  | mk (name : String) (active : Bool) (tasks : List PTask)
      (children : List PItem) : PItem

def PItem.name : PItem → String
  | .mk n _ _ _ => n

def PItem.active : PItem → Bool
  | .mk _ a _ _ => a

def PItem.tasks : PItem → List PTask
  | .mk _ _ ts _ => ts

/-- Modelled from the spec: the publish-tree iterator consumed by
`for item in publish_tree` visits items in pre-order, children after their
parent, each subtree in order.  A tree is given as the forest of top-level
items under the synthetic root. -/
def preorderForest : List PItem → List PItem
  | [] => []
  | .mk n a ts cs :: is =>
      .mk n a ts cs :: (preorderForest cs ++ preorderForest is)

/-- The `item_matched` / `task_matched` flag loop over the filter list. -/
def matchesAny (name : String) (filters : List String) : Bool :=
  filters.foldl (fun acc f => if fnmatch name f then true else acc) false

def execTaskLoop (taskFilters : List String) : List PTask → List PTask
  | [] => []
  | t :: ts =>
    if !matchesAny t.name taskFilters then execTaskLoop taskFilters ts
    else if !t.active then execTaskLoop taskFilters ts
    else t :: execTaskLoop taskFilters ts

def execItemLoop (itemFilters taskFilters : List String) :
    List PItem → List PTask
  | [] => []
  | i :: is =>
    if !matchesAny i.name itemFilters then
      execItemLoop itemFilters taskFilters is
    else if !i.active then execItemLoop itemFilters taskFilters is
    else if i.tasks.isEmpty then execItemLoop itemFilters taskFilters is
    else execTaskLoop taskFilters i.tasks ++
      execItemLoop itemFilters taskFilters is

/-- `TaskGenerator.execute`: `item_filters = item_filters or ["*"]` (ditto
task filters), then the filtered pre-order walk. -/
def taskGeneratorExecute (tree : List PItem)
    (itemFilters taskFilters : List String) : List PTask :=
  execItemLoop (if itemFilters.isEmpty then ["*"] else itemFilters)
    (if taskFilters.isEmpty then ["*"] else taskFilters)
    (preorderForest tree)

/-- The claim's specification of the generator, stated in its words: yield
exactly the active, filter-matching tasks of active, filter-matching,
task-bearing items, in pre-order with tasks in attachment order. -/
def claimedTasks (tree : List PItem)
    (itemFilters taskFilters : List String) : List PTask :=
  ((preorderForest tree).map (fun i =>
    if (itemFilters.any (fun f => fnmatch i.name f)) && i.active
        && !i.tasks.isEmpty then
      i.tasks.filter (fun t =>
        (taskFilters.any (fun f => fnmatch t.name f)) && t.active)
    else [])).flatten

theorem matchesAny_eq_any (n : String) (fs : List String) :
    matchesAny n fs = fs.any (fun f => fnmatch n f) := by
  unfold matchesAny
  suffices h : ∀ acc : Bool,
      fs.foldl (fun acc f => if fnmatch n f then true else acc) acc =
        (acc || fs.any (fun f => fnmatch n f)) by
    rw [h false]
    simp
  induction fs with
  | nil => intro acc; simp
  | cons f t ih =>
      intro acc
      rw [List.foldl_cons, ih]
      by_cases hf : fnmatch n f = true
      · simp [hf]
      · simp only [List.any_cons]
        rw [if_neg hf]
        have : fnmatch n f = false := by
          cases hb : fnmatch n f with
          | true => exact absurd hb hf
          | false => rfl
        simp [this]

theorem execTaskLoop_eq_filter (taskFilters : List String) (ts : List PTask) :
    execTaskLoop taskFilters ts =
      ts.filter (fun t =>
        (taskFilters.any (fun f => fnmatch t.name f)) && t.active) := by
  induction ts with
  | nil => rfl
  | cons t rest ih =>
      unfold execTaskLoop
      rw [List.filter_cons, matchesAny_eq_any]
      by_cases hm : (taskFilters.any fun f => fnmatch t.name f) = true
      · by_cases ha : t.active = true
        · simp [hm, ha, ih]
        · have ha' : t.active = false := by
            cases hb : t.active with
            | true => exact absurd hb ha
            | false => rfl
          simp [hm, ha', ih]
      · have hm' : (taskFilters.any fun f => fnmatch t.name f) = false := by
          cases hb : (taskFilters.any fun f => fnmatch t.name f) with
          | true => exact absurd hb hm
          | false => rfl
        simp [hm', ih]

theorem execItemLoop_eq_spec (itemFilters taskFilters : List String)
    (items : List PItem) :
    execItemLoop itemFilters taskFilters items =
      (items.map (fun i =>
        if (itemFilters.any (fun f => fnmatch i.name f)) && i.active
            && !i.tasks.isEmpty then
          i.tasks.filter (fun t =>
            (taskFilters.any (fun f => fnmatch t.name f)) && t.active)
        else [])).flatten := by
  induction items with
  | nil => rfl
  | cons i rest ih =>
      unfold execItemLoop
      rw [List.map_cons, List.flatten_cons, matchesAny_eq_any]
      by_cases hm : (itemFilters.any fun f => fnmatch i.name f) = true
      · by_cases ha : i.active = true
        · by_cases ht : i.tasks.isEmpty = true
          · simp [hm, ha, ht, ih]
          · have ht' : i.tasks.isEmpty = false := by
              cases hb : i.tasks.isEmpty with
              | true => exact absurd hb ht
              | false => rfl
            simp [hm, ha, ht', ih, execTaskLoop_eq_filter]
        · have ha' : i.active = false := by
            cases hb : i.active with
            | true => exact absurd hb ha
            | false => rfl
          simp [hm, ha', ih]
      · have hm' : (itemFilters.any fun f => fnmatch i.name f) = false := by
          cases hb : (itemFilters.any fun f => fnmatch i.name f) with
          | true => exact absurd hb hm
          | false => rfl
        simp [hm', ih]

/-- C4 (amended): the task generator yields exactly the active,
filter-matching tasks of active, filter-matching, task-bearing items, in
pre-order with tasks in attachment order, skipped items not preventing
their children from being yielded - with empty (or omitted) filter lists
defaulting to `["*"]` before matching. -/
theorem c4_task_generator (tree : List PItem)
    (itemFilters taskFilters : List String) :
    taskGeneratorExecute tree itemFilters taskFilters =
      claimedTasks tree
        (if itemFilters.isEmpty then ["*"] else itemFilters)
        (if taskFilters.isEmpty then ["*"] else taskFilters) := by
  unfold taskGeneratorExecute claimedTasks
  exact execItemLoop_eq_spec _ _ _

/-- C4, counterexample: with an empty item-filter list the code substitutes
`["*"]` and yields every active task, while the claim as stated ("matches
at least one item pattern") predicts that nothing is yielded. -/
theorem c4_counterexample :
    taskGeneratorExecute
      [PItem.mk "item1" true [⟨"task1", true⟩] []] [] [] =
      [⟨"task1", true⟩] ∧
    claimedTasks [PItem.mk "item1" true [⟨"task1", true⟩] []] [] [] = [] ∧
    ([⟨"task1", true⟩] : List PTask) ≠ [] := by
  have hpf : preorderForest [PItem.mk "item1" true [⟨"task1", true⟩] []] =
      [PItem.mk "item1" true [⟨"task1", true⟩] []] := by
    simp [preorderForest]
  refine ⟨?_, ?_, by simp⟩
  · unfold taskGeneratorExecute
    rw [hpf]
    decide
  · unfold claimedTasks
    rw [hpf]
    decide

/-! ## `get_frame_sequences` (path_info.py:329-441)

One non-recursive directory scan: subfolders are skipped, files without a
`FRAME_REGEX` match are skipped, the remaining files are grouped under the
key `"%s.%s" % (prefix, extension)`; the first file of a new group builds
the group's sequence path.  NOTE the `frame_spec` local: it is only
computed (`"%%0%dd" % padding`) when still falsy, and the assignment
persists across loop iterations, so the first processed file's padding is
reused for every later group.  The Python 2 dict of groups is modelled
insertion-ordered (the claims under study are order-agnostic). -/

/-- `os.path.join` for a folder and a file name. -/
def osJoin (folder name : String) : String :=
  if folder.data.isEmpty then name
  else if folder.data.getLast? == some '/' then folder ++ name
  else folder ++ "/" ++ name

/-- `"%%0%dd" % padding`. -/
def frameSpecOf (padding : Nat) : String :=
  "%0" ++ String.mk (natDigits padding) ++ "d"

/-- `processed_names[file_no_frame]["file_list"].append(file_path)`. -/
def appendToKey :
    List (String × (String × List String)) → String → String →
    List (String × (String × List String))
  | [], _, _ => []
  | (k, (sp, fl)) :: t, key, f =>
    if k == key then (k, (sp, fl ++ [f])) :: t
    else (k, (sp, fl)) :: appendToKey t key f

/-- `if extensions and extension not in extensions` (an empty list is falsy
and disables the filter). -/
def extMissing (extensions : Option (List String)) (ext : List Char) : Bool :=
  match extensions with
  | none => false
  | some exts =>
      if exts.isEmpty then false else !(exts.contains (String.mk ext))

def gfsLoop (folder : String) (extensions : Option (List String)) :
    List (String × Bool) → Option String →
    List (String × (String × List String)) →
    List (String × (String × List String))
  | [], _, acc => acc
  | (fname, isDir) :: rest, fspec, acc =>
    if isDir then gfsLoop folder extensions rest fspec acc
    else
      match findFrameSplit fname.data with
      | none => gfsLoop folder extensions rest fspec acc
      | some (pre, sep, fr, ext) =>
        if ((acc.map Prod.fst).contains (String.mk pre ++ "." ++ String.mk ext)) then
          gfsLoop folder extensions rest fspec
            (appendToKey acc (String.mk pre ++ "." ++ String.mk ext)
              (osJoin folder fname))
        else if extMissing extensions ext then
          gfsLoop folder extensions rest fspec acc
        else
          gfsLoop folder extensions rest
            (some (fspec.getD (frameSpecOf fr.length)))
            (acc ++ [(String.mk pre ++ "." ++ String.mk ext,
              (osJoin folder (String.mk (pre ++ sep ::
                ((fspec.getD (frameSpecOf fr.length)).data ++ '.' :: ext))),
               [osJoin folder fname]))])

/-- Stable ascending insertion sort - `sorted(...)` on strings. -/
def insertStr (s : String) : List String → List String
  | [] => [s]
  | x :: t => if s ≤ x then s :: x :: t else x :: insertStr s t

def sortStrings : List String → List String
  | [] => []
  | x :: t => insertStr x (sortStrings t)

/-- `BasicPathInfo.get_frame_sequences`: the directory listing is supplied
as `(name, is_directory)` entries. -/
def getFrameSequences (folder : String) (extensions : Option (List String))
    (frameSpec : Option String) (entries : List (String × Bool)) :
    List (String × List String) :=
  (gfsLoop folder extensions entries frameSpec []).map
    (fun kv => (kv.2.1, sortStrings kv.2.2))

/-- C6, counterexample: with two sequences of different zero-padding in one
folder, the second group's placeholder gets the FIRST group's width
(`%03d`), not its own files' 4-wide padding, because the computed
`frame_spec` persists across loop iterations. -/
theorem c6_counterexample :
    getFrameSequences "" none none
      [("a.001.exr", false), ("b.0001.exr", false)] =
      [("a.%03d.exr", ["a.001.exr"]), ("b.%03d.exr", ["b.0001.exr"])] ∧
    ("b.%03d.exr", ["b.0001.exr"]) ∈ getFrameSequences "" none none
      [("a.001.exr", false), ("b.0001.exr", false)] ∧
    ∀ fl, ("b.%04d.exr", fl) ∉ getFrameSequences "" none none
      [("a.001.exr", false), ("b.0001.exr", false)] := by
  refine ⟨by decide, by decide, ?_⟩
  intro fl hmem
  have : getFrameSequences "" none none
      [("a.001.exr", false), ("b.0001.exr", false)] =
      [("a.%03d.exr", ["a.001.exr"]), ("b.%03d.exr", ["b.0001.exr"])] := by
    decide
  rw [this] at hmem
  rcases List.mem_cons.1 hmem with h | h
  · exact absurd (congrArg Prod.fst h)
      (show ¬("b.%04d.exr" = "a.%03d.exr") by decide)
  · rcases List.mem_cons.1 h with h | h
    · exact absurd (congrArg Prod.fst h)
        (show ¬("b.%04d.exr" = "b.%03d.exr") by decide)
    · simp at h

/-! ### Declarative description of `get_frame_sequences` -/

/-- The files the scan keeps: non-directories with a detectable trailing
frame number. -/
def acceptedFiles (entries : List (String × Bool)) : List String :=
  (entries.filter (fun e => !e.2 && (findFrameSplit e.1.data).isSome)).map
    Prod.fst

/-- The grouping key `"%s.%s" % (prefix, extension)`. -/
def keyOfName (f : String) : String :=
  match findFrameSplit f.data with
  | some (pre, _, _, ext) => String.mk pre ++ "." ++ String.mk ext
  | none => ""

def frameLenOf (f : String) : Nat :=
  match findFrameSplit f.data with
  | some (_, _, fr, _) => fr.length
  | none => 0

/-- The sequence path built from one group file and a frame spec. -/
def patternForKey (folder s f : String) : String :=
  match findFrameSplit f.data with
  | some (pre, sep, _, ext) =>
      osJoin folder (String.mk (pre ++ sep :: (s.data ++ '.' :: ext)))
  | none => ""

def filesWithKey (folder : String) (fs : List String) (k : String) :
    List String :=
  (fs.filter (fun f => keyOfName f == k)).map (osJoin folder)

def firstWithKey (fs : List String) (k : String) : String :=
  ((fs.filter (fun f => keyOfName f == k)).head?).getD ""

/-- Deduplication keeping first occurrences in order. -/
def firstDedup : List String → List String
  | [] => []
  | k :: ks => k :: firstDedup (ks.filter (fun x => !(x == k)))
termination_by l => l.length
decreasing_by
  simp only [List.length_cons]
  exact Nat.lt_succ_of_le (List.length_filter_le _ _)

/-- The amended specification of `get_frame_sequences` (no extension
filter, no supplied frame spec): one descriptor per distinct key among the
accepted files, in first-occurrence order, carrying the lexicographically
sorted full paths of the key's files and the sequence path built from the
group's first file - with the placeholder width taken from the FIRST
accepted file of the whole scan. -/
def c6Reference (folder : String) (entries : List (String × Bool)) :
    List (String × List String) :=
  match acceptedFiles entries with
  | [] => []
  | f :: _ =>
      (firstDedup ((acceptedFiles entries).map keyOfName)).map (fun k =>
        (patternForKey folder (frameSpecOf (frameLenOf f))
          (firstWithKey (acceptedFiles entries) k),
         sortStrings (filesWithKey folder (acceptedFiles entries) k)))

/-- `gfsLoop` restricted to the accepted files (the extension filter is
disabled when `extensions` is `None`). -/
def buildGroups (folder : String) : List String → Option String →
    List (String × (String × List String)) →
    List (String × (String × List String))
  | [], _, acc => acc
  | f :: fs, fspec, acc =>
    match findFrameSplit f.data with
    | none => buildGroups folder fs fspec acc
    | some (pre, sep, fr, ext) =>
      if ((acc.map Prod.fst).contains
          (String.mk pre ++ "." ++ String.mk ext)) then
        buildGroups folder fs fspec
          (appendToKey acc (String.mk pre ++ "." ++ String.mk ext)
            (osJoin folder f))
      else
        buildGroups folder fs (some (fspec.getD (frameSpecOf fr.length)))
          (acc ++ [(String.mk pre ++ "." ++ String.mk ext,
            (osJoin folder (String.mk (pre ++ sep ::
              ((fspec.getD (frameSpecOf fr.length)).data ++ '.' :: ext))),
             [osJoin folder f]))])

theorem gfsLoop_eq_buildGroups (folder : String)
    (entries : List (String × Bool)) :
    ∀ (fspec : Option String) (acc : List (String × (String × List String))),
    gfsLoop folder none entries fspec acc =
      buildGroups folder (acceptedFiles entries) fspec acc := by
  induction entries with
  | nil => intro fspec acc; rfl
  | cons e rest ih =>
      intro fspec acc
      obtain ⟨fname, isDir⟩ := e
      cases isDir with
      | true =>
          have hacc : acceptedFiles ((fname, true) :: rest) =
              acceptedFiles rest := by
            unfold acceptedFiles
            rw [List.filter_cons]
            simp
          rw [hacc]
          simp only [gfsLoop, if_true]
          exact ih fspec acc
      | false =>
          have hacc : acceptedFiles ((fname, false) :: rest) =
              (if (findFrameSplit fname.data).isSome then [fname] else []) ++
                acceptedFiles rest := by
            unfold acceptedFiles
            rw [List.filter_cons]
            by_cases hs : (findFrameSplit fname.data).isSome = true
            · simp [hs]
            · simp [hs]
          rw [hacc]
          simp only [gfsLoop, Bool.false_eq_true, if_false]
          cases hsplit : findFrameSplit fname.data with
          | none =>
              simp only [hsplit, Option.isSome_none, Bool.false_eq_true,
                if_false, List.nil_append]
              exact ih fspec acc
          | some x =>
              obtain ⟨pre, sep, fr, ext⟩ := x
              simp only [hsplit, Option.isSome_some, if_true,
                List.singleton_append]
              simp only [buildGroups, hsplit]
              by_cases hc : ((acc.map Prod.fst).contains
                  (String.mk pre ++ "." ++ String.mk ext)) = true
              · rw [if_pos hc, if_pos hc]
                exact ih _ _
              · rw [if_neg hc, if_neg hc,
                  if_neg (show ¬extMissing none ext = true from
                    Bool.false_ne_true)]
                exact ih _ _

theorem keyOfName_eq (f : String) (pre : List Char) (sep : Char)
    (fr ext : List Char) (h : findFrameSplit f.data = some (pre, sep, fr, ext)) :
    keyOfName f = String.mk pre ++ "." ++ String.mk ext := by
  unfold keyOfName
  rw [h]

theorem patternForKey_eq (folder s f : String) (pre : List Char) (sep : Char)
    (fr ext : List Char) (h : findFrameSplit f.data = some (pre, sep, fr, ext)) :
    patternForKey folder s f =
      osJoin folder (String.mk (pre ++ sep :: (s.data ++ '.' :: ext))) := by
  unfold patternForKey
  rw [h]

theorem frameLenOf_eq (f : String) (pre : List Char) (sep : Char)
    (fr ext : List Char) (h : findFrameSplit f.data = some (pre, sep, fr, ext)) :
    frameLenOf f = fr.length := by
  unfold frameLenOf
  rw [h]

theorem filesWithKey_nil (folder : String) (k : String) :
    filesWithKey folder [] k = [] := rfl

theorem filesWithKey_cons_eq (folder : String) (f : String) (fs : List String)
    (k : String) (h : keyOfName f = k) :
    filesWithKey folder (f :: fs) k =
      osJoin folder f :: filesWithKey folder fs k := by
  unfold filesWithKey
  rw [List.filter_cons]
  have hb : (keyOfName f == k) = true := by
    rw [h]
    exact beq_self_eq_true k
  simp [hb]

theorem filesWithKey_cons_ne (folder : String) (f : String) (fs : List String)
    (k : String) (h : keyOfName f ≠ k) :
    filesWithKey folder (f :: fs) k = filesWithKey folder fs k := by
  unfold filesWithKey
  rw [List.filter_cons, beqStr_false _ _ h]
  simp

theorem firstWithKey_cons_eq (f : String) (fs : List String) (k : String)
    (h : keyOfName f = k) : firstWithKey (f :: fs) k = f := by
  unfold firstWithKey
  rw [List.filter_cons]
  have hb : (keyOfName f == k) = true := by
    rw [h]
    exact beq_self_eq_true k
  simp [hb]

theorem firstWithKey_cons_ne (f : String) (fs : List String) (k : String)
    (h : keyOfName f ≠ k) : firstWithKey (f :: fs) k = firstWithKey fs k := by
  unfold firstWithKey
  rw [List.filter_cons, beqStr_false _ _ h]
  simp

theorem appendToKey_keys (acc : List (String × (String × List String)))
    (k f : String) :
    (appendToKey acc k f).map Prod.fst = acc.map Prod.fst := by
  induction acc with
  | nil => rfl
  | cons g t ih =>
      obtain ⟨k0, sp, fl⟩ := g
      unfold appendToKey
      by_cases hk : (k0 == k) = true
      · rw [if_pos hk, eq_of_beq hk]
        simp
      · rw [if_neg hk]
        simp only [List.map_cons, ih]

theorem contains_append_singleton (l : List String) (k x : String) :
    (l ++ [k]).contains x = (l.contains x || x == k) := by
  induction l with
  | nil =>
      show (([k]).contains x) = (false || x == k)
      rw [Bool.false_or, List.contains_cons]
      simp [List.contains]
  | cons a t ih =>
      show ((a :: (t ++ [k])).contains x) = _
      rw [List.contains_cons, ih, List.contains_cons]
      cases x == a <;> simp

theorem mapCongrOn {α β : Type} (l : List α) (f g : α → β)
    (h : ∀ a ∈ l, f a = g a) : l.map f = l.map g := by
  induction l with
  | nil => rfl
  | cons a t ih =>
      simp only [List.map_cons]
      rw [h a (by simp), ih (fun b hb => h b (by simp [hb]))]

theorem mem_firstDedup_aux (n : Nat) :
    ∀ (l : List String) (x : String), l.length ≤ n →
      x ∈ firstDedup l → x ∈ l := by
  induction n with
  | zero =>
      intro l x hlen h
      have : l = [] := List.eq_nil_of_length_eq_zero (by omega)
      subst this
      rw [firstDedup] at h
      simp at h
  | succ m ih =>
      intro l x hlen h
      cases l with
      | nil => rw [firstDedup] at h; simp at h
      | cons k ks =>
          rw [firstDedup] at h
          rcases List.mem_cons.1 h with h | h
          · simp [h]
          · have hsub := ih (ks.filter (fun y => !(y == k))) x
              (by
                have := List.length_filter_le (fun y => !(y == k)) ks
                simp only [List.length_cons] at hlen
                omega) h
            exact List.mem_cons_of_mem _ (List.mem_filter.1 hsub).1

theorem mem_firstDedup (l : List String) (x : String)
    (h : x ∈ firstDedup l) : x ∈ l :=
  mem_firstDedup_aux l.length l x (le_refl _) h

theorem appendToKey_map_extend (folder : String) (f : String)
    (fs : List String) :
    ∀ (acc : List (String × (String × List String))),
      (acc.map Prod.fst).Nodup →
      (acc.map Prod.fst).contains (keyOfName f) = true →
      (appendToKey acc (keyOfName f) (osJoin folder f)).map
        (fun g => (g.1, (g.2.1, g.2.2 ++ filesWithKey folder fs g.1))) =
      acc.map (fun g => (g.1, (g.2.1, g.2.2 ++
        filesWithKey folder (f :: fs) g.1))) := by
  intro acc
  induction acc with
  | nil => intro _ hmem; simp [List.contains] at hmem
  | cons g t ih =>
      intro hnd hmem
      obtain ⟨k0, sp, fl⟩ := g
      unfold appendToKey
      by_cases hk : (k0 == keyOfName f) = true
      · rw [if_pos hk]
        have hkey : keyOfName f = k0 := (eq_of_beq hk).symm
        simp only [List.map_cons]
        have hhead : filesWithKey folder (f :: fs) k0 =
            osJoin folder f :: filesWithKey folder fs k0 :=
          filesWithKey_cons_eq folder f fs k0 hkey
        rw [hhead]
        have hassoc : (fl ++ [osJoin folder f]) ++ filesWithKey folder fs k0 =
            fl ++ (osJoin folder f :: filesWithKey folder fs k0) := by
          rw [List.append_assoc]
          rfl
        rw [← hassoc]
        have htail : t.map (fun g => (g.1, (g.2.1, g.2.2 ++
            filesWithKey folder fs g.1))) =
            t.map (fun g => (g.1, (g.2.1, g.2.2 ++
              filesWithKey folder (f :: fs) g.1))) := by
          apply mapCongrOn
          intro a ha
          have hne : a.1 ≠ keyOfName f := by
            intro he
            simp only [List.map_cons, List.nodup_cons] at hnd
            exact hnd.1 (by
              rw [← hkey, ← he]
              exact List.mem_map_of_mem Prod.fst ha)
          rw [filesWithKey_cons_ne folder f fs a.1 (fun hx => hne hx.symm)]
        rw [htail]
      · rw [if_neg hk]
        simp only [List.map_cons]
        have hne : keyOfName f ≠ k0 := by
          intro he
          rw [he] at hk
          exact hk (beq_self_eq_true k0)
        rw [filesWithKey_cons_ne folder f fs k0 hne]
        have hmem' : (t.map Prod.fst).contains (keyOfName f) = true := by
          simp only [List.map_cons, List.contains_cons] at hmem
          rw [Bool.or_eq_true] at hmem
          rcases hmem with h | h
          · exact absurd (eq_of_beq h) hne
          · exact h
        have hnd' : (t.map Prod.fst).Nodup := by
          simp only [List.map_cons, List.nodup_cons] at hnd
          exact hnd.2
        rw [ih hnd' hmem']

theorem containsStr_eq_false (l : List String) (x : String) :
    l.contains x = false ↔ x ∉ l := by
  induction l with
  | nil => simp [List.contains]
  | cons a t ih =>
      rw [List.contains_cons]
      constructor
      · intro h hmem
        rw [Bool.or_eq_false_iff] at h
        rcases List.mem_cons.1 hmem with hm | hm
        · rw [hm] at h
          rw [beq_self_eq_true a] at h
          exact absurd h.1 (by simp)
        · exact (ih.1 h.2) hm
      · intro h
        rw [Bool.or_eq_false_iff]
        constructor
        · exact beqStr_false x a (fun he => h (by simp [he]))
        · exact ih.2 (fun hm => h (List.mem_cons_of_mem _ hm))

theorem buildGroups_some_spec (folder s : String) :
    ∀ (fs : List String),
      (∀ f ∈ fs, (findFrameSplit f.data).isSome = true) →
      ∀ (acc : List (String × (String × List String))),
        (acc.map Prod.fst).Nodup →
        buildGroups folder fs (some s) acc =
          acc.map (fun g => (g.1, (g.2.1, g.2.2 ++
            filesWithKey folder fs g.1))) ++
          (firstDedup ((fs.map keyOfName).filter
            (fun k => !((acc.map Prod.fst).contains k)))).map
            (fun k => (k, (patternForKey folder s (firstWithKey fs k),
              filesWithKey folder fs k))) := by
  intro fs
  induction fs with
  | nil =>
      intro _ acc _
      show acc = _
      rw [show (List.map keyOfName []).filter
          (fun k => !((acc.map Prod.fst).contains k)) = [] from rfl]
      rw [show firstDedup [] = [] from by rw [firstDedup]]
      simp [filesWithKey_nil]
  | cons f fs ih =>
      intro hall acc hnd
      have hf : (findFrameSplit f.data).isSome = true := hall f (by simp)
      obtain ⟨x, hx⟩ := Option.isSome_iff_exists.1 hf
      obtain ⟨pre, sep, fr, ext⟩ := x
      have hkey : String.mk pre ++ "." ++ String.mk ext = keyOfName f :=
        (keyOfName_eq f pre sep fr ext hx).symm
      have hall' : ∀ g ∈ fs, (findFrameSplit g.data).isSome = true :=
        fun g hg => hall g (by simp [hg])
      simp only [buildGroups, hx]
      rw [hkey]
      by_cases hc : ((acc.map Prod.fst).contains (keyOfName f)) = true
      · rw [if_pos hc]
        have hnd' : ((appendToKey acc (keyOfName f)
            (osJoin folder f)).map Prod.fst).Nodup := by
          rw [appendToKey_keys]
          exact hnd
        rw [ih hall' _ hnd']
        rw [appendToKey_keys]
        rw [appendToKey_map_extend folder f fs acc hnd hc]
        have hfilter : ((f :: fs).map keyOfName).filter
            (fun k => !((acc.map Prod.fst).contains k)) =
            (fs.map keyOfName).filter
              (fun k => !((acc.map Prod.fst).contains k)) := by
          rw [List.map_cons, List.filter_cons]
          rw [hc]
          simp
        rw [hfilter]
        congr 1
        apply mapCongrOn
        intro k hk
        have hkmem := mem_firstDedup _ _ hk
        have hkne : keyOfName f ≠ k := by
          intro he
          have := (List.mem_filter.1 hkmem).2
          rw [← he, hc] at this
          simp at this
        rw [firstWithKey_cons_ne f fs k hkne, filesWithKey_cons_ne folder f fs k hkne]
      · rw [if_neg hc]
        have hcf : (acc.map Prod.fst).contains (keyOfName f) = false := by
          cases hb : (acc.map Prod.fst).contains (keyOfName f) with
          | true => exact absurd hb hc
          | false => rfl
        have hnotin : keyOfName f ∉ acc.map Prod.fst :=
          (containsStr_eq_false _ _).1 hcf
        have hpat : osJoin folder (String.mk (pre ++ sep ::
            (((some s).getD (frameSpecOf fr.length)).data ++ '.' :: ext))) =
            patternForKey folder s f := by
          rw [patternForKey_eq folder s f pre sep fr ext hx]
          rfl
        rw [hpat]
        have hnd2 : (((acc ++ [(keyOfName f, (patternForKey folder s f,
            [osJoin folder f]))]).map Prod.fst)).Nodup := by
          rw [List.map_append]
          apply List.Nodup.append hnd (by simp)
          intro a ha hb
          simp only [List.map_cons, List.map_nil, List.mem_singleton] at hb
          rw [hb] at ha
          exact hnotin ha
        rw [show ((some s).getD (frameSpecOf fr.length)) = s from rfl]
        rw [ih hall' _ hnd2]
        rw [List.map_append]
        have hmapacc : acc.map (fun g => (g.1, (g.2.1, g.2.2 ++
            filesWithKey folder fs g.1))) =
            acc.map (fun g => (g.1, (g.2.1, g.2.2 ++
              filesWithKey folder (f :: fs) g.1))) := by
          apply mapCongrOn
          intro g hg
          have hne : keyOfName f ≠ g.1 := by
            intro he
            exact hnotin (he ▸ List.mem_map_of_mem Prod.fst hg)
          rw [filesWithKey_cons_ne folder f fs g.1 hne]
        rw [hmapacc]
        have hsingle : ([(keyOfName f, (patternForKey folder s f,
            [osJoin folder f]))].map (fun g => (g.1, (g.2.1, g.2.2 ++
              filesWithKey folder fs g.1)))) =
            [(keyOfName f, (patternForKey folder s f,
              osJoin folder f :: filesWithKey folder fs (keyOfName f)))] := by
          simp
        rw [hsingle]
        have hkeys2 : ((acc ++ [(keyOfName f, (patternForKey folder s f,
            [osJoin folder f]))]).map Prod.fst) =
            acc.map Prod.fst ++ [keyOfName f] := by
          rw [List.map_append]
          rfl
        rw [hkeys2]
        have hfilter2 : (fs.map keyOfName).filter
            (fun k => !((acc.map Prod.fst ++ [keyOfName f]).contains k)) =
            ((fs.map keyOfName).filter
              (fun k => !((acc.map Prod.fst).contains k))).filter
              (fun k => !(k == keyOfName f)) := by
          rw [List.filter_filter]
          apply List.filter_congr
          intro k _
          rw [contains_append_singleton]
          cases hk1 : (acc.map Prod.fst).contains k <;>
            cases hk2 : k == keyOfName f <;> rfl
        have hfilter3 : ((f :: fs).map keyOfName).filter
            (fun k => !((acc.map Prod.fst).contains k)) =
            keyOfName f :: (fs.map keyOfName).filter
              (fun k => !((acc.map Prod.fst).contains k)) := by
          rw [List.map_cons, List.filter_cons, hcf]
          simp
        rw [hfilter2, hfilter3]
        rw [show firstDedup (keyOfName f :: (fs.map keyOfName).filter
            (fun k => !((acc.map Prod.fst).contains k))) =
          keyOfName f :: firstDedup (((fs.map keyOfName).filter
            (fun k => !((acc.map Prod.fst).contains k))).filter
              (fun y => !(y == keyOfName f))) from by rw [firstDedup]]
        rw [List.map_cons]
        rw [firstWithKey_cons_eq f fs (keyOfName f) rfl,
          filesWithKey_cons_eq folder f fs (keyOfName f) rfl]
        have hrest : (firstDedup (((fs.map keyOfName).filter
            (fun k => !((acc.map Prod.fst).contains k))).filter
              (fun y => !(y == keyOfName f)))).map
            (fun k => (k, (patternForKey folder s (firstWithKey fs k),
              filesWithKey folder fs k))) =
            (firstDedup (((fs.map keyOfName).filter
              (fun k => !((acc.map Prod.fst).contains k))).filter
                (fun y => !(y == keyOfName f)))).map
            (fun k => (k, (patternForKey folder s (firstWithKey (f :: fs) k),
              filesWithKey folder (f :: fs) k))) := by
          apply mapCongrOn
          intro k hk
          have hkmem := mem_firstDedup _ _ hk
          have hkne : keyOfName f ≠ k := by
            intro he
            have := (List.mem_filter.1 hkmem).2
            rw [← he] at this
            rw [beq_self_eq_true] at this
            simp at this
          rw [firstWithKey_cons_ne f fs k hkne,
            filesWithKey_cons_ne folder f fs k hkne]
        rw [hrest]
        rw [List.append_assoc]
        rfl

theorem acceptedFiles_some (entries : List (String × Bool)) :
    ∀ f ∈ acceptedFiles entries, (findFrameSplit f.data).isSome = true := by
  intro f hf
  unfold acceptedFiles at hf
  obtain ⟨e, he, hfe⟩ := List.mem_map.1 hf
  have h2 := (List.mem_filter.1 he).2
  rw [Bool.and_eq_true] at h2
  rw [← hfe]
  exact h2.2

/-- C6, amended: with no extension filter and no caller-supplied frame
spec, `get_frame_sequences` yields one descriptor per distinct grouping
key (prefix.extension) of the accepted files, in first-occurrence order,
each carrying the lexicographically sorted full paths of the key's files
and a sequence path built from that key's first file - but every
placeholder takes its width from the FIRST accepted file of the whole
scan, because the local `frame_spec` persists across loop iterations
instead of being recomputed per group. -/
theorem c6_amended (folder : String) (entries : List (String × Bool)) :
    getFrameSequences folder none none entries =
      c6Reference folder entries := by
  unfold getFrameSequences
  rw [gfsLoop_eq_buildGroups]
  cases hacc : acceptedFiles entries with
  | nil =>
      have hR : c6Reference folder entries = [] := by
        unfold c6Reference
        rw [hacc]
      rw [hR]
      rfl
  | cons f fs =>
      have hR : c6Reference folder entries =
          (firstDedup ((f :: fs).map keyOfName)).map (fun k =>
            (patternForKey folder (frameSpecOf (frameLenOf f))
              (firstWithKey (f :: fs) k),
             sortStrings (filesWithKey folder (f :: fs) k))) := by
        unfold c6Reference
        rw [hacc]
      rw [hR]
      have hall : ∀ g ∈ f :: fs, (findFrameSplit g.data).isSome = true := by
        rw [← hacc]
        exact acceptedFiles_some entries
      have hf : (findFrameSplit f.data).isSome = true := hall f (by simp)
      obtain ⟨x, hx⟩ := Option.isSome_iff_exists.1 hf
      obtain ⟨pre, sep, fr, ext⟩ := x
      have hall' : ∀ g ∈ fs, (findFrameSplit g.data).isSome = true :=
        fun g hg => hall g (by simp [hg])
      have hkey : String.mk pre ++ "." ++ String.mk ext = keyOfName f :=
        (keyOfName_eq f pre sep fr ext hx).symm
      have hlen : fr.length = frameLenOf f :=
        (frameLenOf_eq f pre sep fr ext hx).symm
      rw [show buildGroups folder (f :: fs) none [] =
          buildGroups folder fs (some (frameSpecOf fr.length))
            [(String.mk pre ++ "." ++ String.mk ext,
              (osJoin folder (String.mk (pre ++ sep ::
                ((frameSpecOf fr.length).data ++ '.' :: ext))),
               [osJoin folder f]))] from by
        simp only [buildGroups, hx]
        rfl]
      rw [hlen, hkey]
      rw [show osJoin folder (String.mk (pre ++ sep ::
          ((frameSpecOf (frameLenOf f)).data ++ '.' :: ext))) =
          patternForKey folder (frameSpecOf (frameLenOf f)) f from
        (patternForKey_eq folder (frameSpecOf (frameLenOf f)) f
          pre sep fr ext hx).symm]
      rw [buildGroups_some_spec folder (frameSpecOf (frameLenOf f)) fs hall'
        [(keyOfName f, (patternForKey folder (frameSpecOf (frameLenOf f)) f,
          [osJoin folder f]))] (by simp)]
      rw [List.map_append]
      rw [show List.map (fun kv => (kv.2.1, sortStrings kv.2.2))
          (List.map (fun g => (g.1, (g.2.1, g.2.2 ++
            filesWithKey folder fs g.1)))
            [(keyOfName f, (patternForKey folder (frameSpecOf (frameLenOf f)) f,
              [osJoin folder f]))]) =
          [(patternForKey folder (frameSpecOf (frameLenOf f)) f,
            sortStrings (osJoin folder f ::
              filesWithKey folder fs (keyOfName f)))] from rfl]
      have hfilt : (fs.map keyOfName).filter (fun k =>
          !((List.map Prod.fst
            [(keyOfName f, (patternForKey folder (frameSpecOf (frameLenOf f)) f,
              [osJoin folder f]))]).contains k)) =
          (fs.map keyOfName).filter (fun x => !(x == keyOfName f)) := by
        apply List.filter_congr
        intro k _
        cases hk : (k == keyOfName f) <;>
          simp [List.contains, List.elem, hk]
      rw [hfilt]
      rw [List.map_map]
      rw [show ((fun kv => (kv.2.1, sortStrings kv.2.2)) ∘
          (fun k => ((k : String),
            (patternForKey folder (frameSpecOf (frameLenOf f))
              (firstWithKey fs k), filesWithKey folder fs k)))) =
          (fun k => (patternForKey folder (frameSpecOf (frameLenOf f))
            (firstWithKey fs k),
            sortStrings (filesWithKey folder fs k))) from
        funext (fun k => rfl)]
      rw [show (f :: fs).map keyOfName = keyOfName f :: fs.map keyOfName
        from rfl]
      rw [show firstDedup (keyOfName f :: fs.map keyOfName) =
          keyOfName f :: firstDedup ((fs.map keyOfName).filter
            (fun x => !(x == keyOfName f))) from by rw [firstDedup]]
      simp only [List.map_cons]
      rw [firstWithKey_cons_eq f fs (keyOfName f) rfl,
        filesWithKey_cons_eq folder f fs (keyOfName f) rfl]
      have hRtail : (firstDedup ((fs.map keyOfName).filter
          (fun x => !(x == keyOfName f)))).map (fun k =>
            (patternForKey folder (frameSpecOf (frameLenOf f))
              (firstWithKey (f :: fs) k),
             sortStrings (filesWithKey folder (f :: fs) k))) =
          (firstDedup ((fs.map keyOfName).filter
            (fun x => !(x == keyOfName f)))).map (fun k =>
              (patternForKey folder (frameSpecOf (frameLenOf f))
                (firstWithKey fs k),
               sortStrings (filesWithKey folder fs k))) := by
        apply mapCongrOn
        intro k hk
        have hkmem := mem_firstDedup _ _ hk
        have h2 := (List.mem_filter.1 hkmem).2
        have hkne : keyOfName f ≠ k := by
          intro he
          rw [← he] at h2
          rw [beq_self_eq_true] at h2
          simp at h2
        rw [firstWithKey_cons_ne f fs k hkne,
          filesWithKey_cons_ne folder f fs k hkne]
      rw [hRtail]
      rfl

/-! ### The publish plugin (`publish.py`): publish, undo, validate, finalize

The filesystem is the list of existing file paths; the external tracking
collaborator is a list of records, and `register_publish` is an oracle
outcome (`RegOutcome`): a created record, no data, or an exception.
`glob` is modelled by `fnmatch` over the disk list (the disk holds files
only, so the `os.path.isfile` filter is a no-op). Option results model
exceptions escaping a step. Templates are unconfigured (zero-config), as
everywhere above. The `publish_files`/`publish_symlinks` bookkeeping
dictionaries written into item properties are not read by any of the
modelled code and are omitted. -/

/-- A tracking record in the external collaborator, identified by entity
type and id (the two values `undo` passes to `shotgun.delete`). -/
structure Record where
  rtype : String
  rid : Nat
deriving DecidableEq

/-- The item properties read and written by the publish plugin. -/
structure PubProps where
  path : Option String
  publish_path : String
  publish_symlink_path : Option String
  is_sequence : Bool
  sequence_paths : List String
  sg_publish_data_list : Option (List Record)
deriving DecidableEq

/-- Disk plus the external record store. -/
structure World where
  disk : List String
  store : List Record
deriving DecidableEq

/-- Python truthiness of an optional string (`None` and `""` are falsy). -/
def truthyStr : Option String → Bool
  | none => false
  | some s => !(s.isEmpty)

/-- The path after the `get_path_for_frame(path, 1001)` probe at the top of
`get_frame_sequence_path`: the substituted path if the input contained a
frame spec, else the input itself. -/
def seqProbe (p : String) : String :=
  match getPathForFrame p "1001" with
  | some fp => fp
  | none => p

/-- `BasicPathInfo.get_frame_sequence_path` (path_info.py:242-305),
zero-config (no matching template, no `SEQ` key, no supplied frame spec):
after the frame-spec probe, replace a trailing frame number by a `%0Nd`
placeholder of the same width; `None` when no frame number is found. The
`FRAME_REGEX` extension group is mandatory, so the extension branch always
appends it. -/
def getFrameSequencePathM (p : String) : Option String :=
  match findFrameSplit (fileNameOf (seqProbe p).data) with
  | none => none
  | some (pre, sep, fr, ext) =>
      some (String.mk (folderOf (seqProbe p).data ++
        (pre ++ sep :: ((frameSpecOf fr.length).data ++ '.' :: ext))))

/-- `BasicPathInfo.get_sequence_path_files` (path_info.py:307-327): the
sorted existing files matching the `*`-substituted pattern; `none` models
the exception from `glob.iglob(None)` when no frame spec is found. -/
def getSequencePathFiles (p : String) (disk : List String) :
    Option (List String) :=
  match getPathForFrame p "*" with
  | none => none
  | some pat => some (sortStrings (disk.filter (fun f => fnmatch f pat)))

/-- `BasicPathInfo.delete_files` (path_info.py:738-764): remove each path
from the disk (safe delete: absent paths are fine), returning the
processed paths and the updated disk. -/
def deleteFiles : List String → List String → List String × List String
  | [], disk => ([], disk)
  | p :: rest, disk =>
      match deleteFiles rest (disk.filter (fun f => !(f == p))) with
      | (pr, d2) => (p :: pr, d2)

/-- `PublishPlugin.delete_files` (publish.py:693-706): delete the sequence
files when the deletion path is a frame sequence, else the single path. -/
def pluginDeleteFiles (p : String) (disk : List String) :
    Option (List String × List String) :=
  match getFrameSequencePathM p with
  | some sp =>
      match getSequencePathFiles sp disk with
      | none => none
      | some fs => some (deleteFiles fs disk)
  | none => some (deleteFiles [p] disk)

/-- The record deletions `undo` performs: each entry of the list is
deleted from the store by (type, id); failures are logged and swallowed,
so deletion always proceeds. -/
def deleteRecords : List Record → List Record → List Record
  | [], store => store
  | r :: rest, store =>
      deleteRecords rest (store.filter (fun q => !(decide (q = r))))

/-- `PublishPlugin.undo` (publish.py:554-603): delete the symlink path (if
truthy), then the publish path; if the `sg_publish_data_list` property is
truthy, delete each of its records and pop the property (a falsy value -
absent or the empty list - is left untouched). -/
def undoStep (props : PubProps) (w : World) : Option (PubProps × World) :=
  match (if truthyStr props.publish_symlink_path then
      pluginDeleteFiles (props.publish_symlink_path.getD "") w.disk
    else some ([], w.disk)) with
  | none => none
  | some pr1 =>
      match pluginDeleteFiles props.publish_path pr1.2 with
      | none => none
      | some pr2 =>
          match props.sg_publish_data_list with
          | some l =>
              if l.isEmpty then some (props, World.mk pr2.2 w.store)
              else some (PubProps.mk props.path props.publish_path
                  props.publish_symlink_path props.is_sequence
                  props.sequence_paths none,
                World.mk pr2.2 (deleteRecords l w.store))
          | none => some (props, World.mk pr2.2 w.store)

/-- `PublishPlugin.finalize` (publish.py:606-640): the records whose
conflicting publishes get their status cleared - the whole body runs only
when the `sg_publish_data_list` property is present. -/
def finalizeEffects (props : PubProps) : List Record :=
  match props.sg_publish_data_list with
  | some l => l
  | none => []

/-- `PublishPlugin.validate` (publish.py:284-414): the attribute loop
(collapsed to the flag `attrsOk`: an attribute failure is caught and
returns `False`), the conflicting-publishes check against the records the
collaborator reports, then the on-disk conflict check when the resolved
publish path differs from the source path. `none` models the exception
from globbing a `None` sequence pattern. -/
def validateStep (attrsOk : Bool) (conflicts : List Record)
    (props : PubProps) (disk : List String) : Option Bool :=
  if !attrsOk then some false
  else if !conflicts.isEmpty then some false
  else
    match (if props.is_sequence then
        props.path.map (fun sp => getPathForFrame sp "*")
      else some props.path) with
    | none => none
    | some pathO =>
        if pathO = (if props.is_sequence then
            getPathForFrame props.publish_path "*"
          else some props.publish_path) then some true
        else
          match (if props.is_sequence then
              (getPathForFrame props.publish_path "*").map (fun pat =>
                !(disk.filter (fun f => fnmatch f pat)).isEmpty)
            else some (disk.contains props.publish_path)) with
          | none => none
          | some conflictFound =>
              if conflictFound then some false else some true

/-- C2: validate reports a hard failure (returns `false`) whenever the
collaborator reports at least one conflicting record; and whenever the
resolved publish path differs from the source path and the destination
already exists on disk - for a sequence, whenever any existing file
matches the `*`-substituted destination pattern. -/
theorem c2_validate_conflicts (attrsOk : Bool) (conflicts : List Record)
    (props : PubProps) (disk : List String) :
    (conflicts ≠ [] →
      validateStep attrsOk conflicts props disk = some false) ∧
    (props.is_sequence = false → props.path ≠ some props.publish_path →
      props.publish_path ∈ disk →
      validateStep attrsOk conflicts props disk = some false) ∧
    (props.is_sequence = true →
      ∀ sp, props.path = some sp →
      ∀ pat, getPathForFrame props.publish_path "*" = some pat →
      getPathForFrame sp "*" ≠ some pat →
      disk.filter (fun f => fnmatch f pat) ≠ [] →
      validateStep attrsOk conflicts props disk = some false) := by
  refine ⟨?_, ?_, ?_⟩
  · intro hc
    cases attrsOk with
    | false => simp [validateStep]
    | true =>
        have hne : conflicts.isEmpty = false := by
          cases conflicts with
          | nil => exact absurd rfl hc
          | cons a t => rfl
        simp [validateStep, hne]
  · intro hns hne hmem
    cases attrsOk with
    | false => simp [validateStep]
    | true =>
        by_cases hc : conflicts.isEmpty = true
        · simp [validateStep, hc, hns, hne]
          exact hmem
        · simp [validateStep, Bool.eq_false_iff.2 hc]
  · intro hseq sp hsp pat hpat hne hfil
    cases attrsOk with
    | false => simp [validateStep]
    | true =>
        by_cases hc : conflicts.isEmpty = true
        · have hfe : (disk.filter (fun f => fnmatch f pat)).isEmpty =
              false := by
            cases hl : disk.filter (fun f => fnmatch f pat) with
            | nil => exact absurd hl hfil
            | cons a t => rfl
          simp [validateStep, hc, hseq, hsp, hpat, hne, hfe]
        · simp [validateStep, Bool.eq_false_iff.2 hc]

theorem c2_validate_conflicts_witness :
    (([Record.mk "PublishedFile" 1] : List Record) ≠ []) ∧
    validateStep true [Record.mk "PublishedFile" 1]
      (PubProps.mk (some "/w/x.ma") "/p/x.ma" none false [] none)
      [] = some false ∧
    validateStep true []
      (PubProps.mk (some "/w/x.ma") "/p/x.ma" none false [] none)
      ["/p/x.ma"] = some false ∧
    validateStep true []
      (PubProps.mk (some "/w/x.%04d.exr") "/p/x.%04d.exr" none true [] none)
      ["/p/x.1001.exr"] = some false :=
  ⟨by decide,
   (c2_validate_conflicts true [Record.mk "PublishedFile" 1]
     (PubProps.mk (some "/w/x.ma") "/p/x.ma" none false [] none) []).1
     (by decide),
   (c2_validate_conflicts true []
     (PubProps.mk (some "/w/x.ma") "/p/x.ma" none false [] none)
     ["/p/x.ma"]).2.1 rfl (by decide) (by decide),
   (c2_validate_conflicts true []
     (PubProps.mk (some "/w/x.%04d.exr") "/p/x.%04d.exr" none true [] none)
     ["/p/x.1001.exr"]).2.2 rfl "/w/x.%04d.exr" rfl "/p/x.*.exr" rfl
     (by decide) (by decide)⟩

/-- C10: whenever `undo` completes on an item whose `sg_publish_data_list`
is not the (unreachable) falsy empty list, the resulting item has no
`sg_publish_data_list` property, and `finalize` on it therefore performs
no conflict-status clearing at all. -/
theorem c10_finalize_noop_after_undo (props : PubProps) (w : World)
    (props2 : PubProps) (w2 : World)
    (hsg : props.sg_publish_data_list ≠ some [])
    (h : undoStep props w = some (props2, w2)) :
    props2.sg_publish_data_list = none ∧ finalizeEffects props2 = [] := by
  unfold undoStep at h
  cases h1 : (if truthyStr props.publish_symlink_path then
      pluginDeleteFiles (props.publish_symlink_path.getD "") w.disk
    else some ([], w.disk)) with
  | none =>
      simp only [h1] at h
      exact Option.noConfusion h
  | some pr1 =>
      simp only [h1] at h
      cases h2 : pluginDeleteFiles props.publish_path pr1.2 with
      | none =>
          simp only [h2] at h
          exact Option.noConfusion h
      | some pr2 =>
          simp only [h2] at h
          cases hl : props.sg_publish_data_list with
          | none =>
              simp only [hl, Option.some_inj, Prod.mk.injEq] at h
              obtain ⟨hp2, _⟩ := h
              constructor
              · rw [← hp2]
                exact hl
              · rw [← hp2]
                unfold finalizeEffects
                rw [hl]
          | some l =>
              cases l with
              | nil => exact absurd hl hsg
              | cons r rs =>
                  simp only [hl, List.isEmpty_cons, Bool.false_eq_true,
                    if_false, Option.some_inj, Prod.mk.injEq] at h
                  obtain ⟨hp2, _⟩ := h
                  constructor
                  · rw [← hp2]
                  · rw [← hp2]
                    unfold finalizeEffects
                    rfl

theorem c10_finalize_noop_after_undo_witness :
    ((some [Record.mk "PublishedFile" 12] : Option (List Record)) ≠
      some []) ∧
    undoStep
      (PubProps.mk (some "/w/x.ma") "/p/x.ma" none false []
        (some [Record.mk "PublishedFile" 12]))
      (World.mk ["/p/x.ma"] [Record.mk "PublishedFile" 12]) =
      some (PubProps.mk (some "/w/x.ma") "/p/x.ma" none false [] none,
        World.mk [] []) ∧
    ((PubProps.mk (some "/w/x.ma") "/p/x.ma" none false []
        (none : Option (List Record))).sg_publish_data_list = none ∧
      finalizeEffects (PubProps.mk (some "/w/x.ma") "/p/x.ma" none false []
        none) = []) :=
  ⟨by decide, by decide,
   c10_finalize_noop_after_undo
     (PubProps.mk (some "/w/x.ma") "/p/x.ma" none false []
       (some [Record.mk "PublishedFile" 12]))
     (World.mk ["/p/x.ma"] [Record.mk "PublishedFile" 12])
     (PubProps.mk (some "/w/x.ma") "/p/x.ma" none false [] none)
     (World.mk [] []) (by decide) (by decide)⟩

